import Mathlib

/-!
Verification development for the wal-g prometheus exporter
(`src/exporter.py`).  WAL segment identifiers are Python strings; we embed
them as `List Char`.  Python unbounded integers are embedded as `Int`
(`//` is `Int.fdiv`, `%` with a positive modulus is `Int.emod`).  Python
calls that raise exceptions are embedded as `Option`/`Except` values,
with `none`/`.error` marking the raise.
-/

namespace Walg

/-- WAL identifiers are Python `str` values: lists of characters. -/
abbrev Wal := List Char

/-- Python slicing `s[a:b]` (for `0 ≤ a ≤ b`). -/
def slice (s : Wal) (a b : Nat) : List Char := (s.drop a).take (b - a)

/-- The characters accepted by Python `int(_, 16)` (sign handled apart). -/
def isHexDigitB (c : Char) : Bool :=
  (('0' ≤ c && c ≤ '9') || ('A' ≤ c && c ≤ 'F') || ('a' ≤ c && c ≤ 'f'))

/-- Numeric value of a hexadecimal digit character. -/
def hexVal (c : Char) : Nat :=
  if '0' ≤ c && c ≤ '9' then c.toNat - 48
  else if 'A' ≤ c && c ≤ 'F' then c.toNat - 55
  else if 'a' ≤ c && c ≤ 'f' then c.toNat - 87
  else 0

/-- Uppercase hexadecimal digit character for a value `< 16`
(as produced by Python `'%X'` formatting). -/
def hexDigitChar (n : Nat) : Char :=
  match n with
  | 0 => '0' | 1 => '1' | 2 => '2' | 3 => '3' | 4 => '4'
  | 5 => '5' | 6 => '6' | 7 => '7' | 8 => '8' | 9 => '9'
  | 10 => 'A' | 11 => 'B' | 12 => 'C' | 13 => 'D' | 14 => 'E'
  | 15 => 'F' | _ => '*'

/-- Accumulator pass of Python `int(s, 16)` over the digit characters:
`none` as soon as a non-hex character is met. -/
def parseHexCore : List Char → Nat → Option Nat
  | [], acc => some acc
  | c :: cs, acc =>
      if isHexDigitB c then parseHexCore cs (acc * 16 + hexVal c) else none

/-- Python `int(s, 16)` for a non-negative literal: fails (`none`) on the
empty string or a non-hex character. -/
def parseHexNat (s : List Char) : Option Nat :=
  match s with
  | [] => none
  | _ => parseHexCore s 0

/-- Python `int(s, 16)` with an optional leading minus sign (the only
shapes ever produced by the exporter's own `'%08X'` formatting). -/
def parseHexInt (s : List Char) : Option Int :=
  if s.head? = some '-' then (parseHexNat (s.drop 1)).map (fun n => -(n : Int))
  else (parseHexNat s).map (fun n => (n : Int))

/-- Hexadecimal digit expansion of a natural number, most significant
digit first, with explicit fuel (structural recursion).  Fuel 40 covers
every value below `16 ^ 40`; all values reachable from 24-character
identifiers stay far below that bound. -/
def toHexUpperAux : Nat → Nat → List Char
  | 0, _ => []
  | fuel + 1, n =>
      if n < 16 then [hexDigitChar n]
      else toHexUpperAux fuel (n / 16) ++ [hexDigitChar (n % 16)]

/-- Digits of Python `'%X' % n` for `n ≥ 0`. -/
def toHexUpper (n : Nat) : List Char := toHexUpperAux 40 n

/-- Left-pad with `'0'` to width `w` (no-op when already long enough). -/
def padZero (w : Nat) (s : List Char) : List Char :=
  List.replicate (w - s.length) '0' ++ s

/-- Python `'%08X' % n` for an arbitrary integer `n`: minimum field width
8 counting the sign, zero padded, uppercase. -/
def fmt08X (n : Int) : List Char :=
  if n < 0 then '-' :: padZero 7 (toHexUpper n.natAbs)
  else padZero 8 (toHexUpper n.toNat)

/-- Fixed-width big-endian hexadecimal digits of `x` (`w` digits,
truncating above `16 ^ w`).  Canonical-form helper used in statements;
equal to `'%08X'` formatting for `w = 8` on values below `16 ^ 8`. -/
def fmtFixed : Nat → Nat → List Char
  | 0, _ => []
  | w + 1, x => fmtFixed w (x / 16) ++ [hexDigitChar (x % 16)]

/-- Numeric value of a hex-digit string (total companion of the parser). -/
def valHex (s : List Char) : Nat :=
  s.foldl (fun a c => a * 16 + hexVal c) 0

/-- Python string `<` (lexicographic on code points). -/
def strLt : List Char → List Char → Bool
  | [], [] => false
  | [], _ :: _ => true
  | _ :: _, [] => false
  | a :: as, b :: bs => if a < b then true else if b < a then false else strLt as bs

/-- Python `max` over an iterable of strings: raises (`none`) on empty. -/
def pyMax : List Wal → Option Wal
  | [] => none
  | x :: xs => some (xs.foldl (fun m y => if strLt m y then y else m) x)

/-- Python `min` over an iterable of strings: raises (`none`) on empty. -/
def pyMin : List Wal → Option Wal
  | [] => none
  | x :: xs => some (xs.foldl (fun m y => if strLt y m then y else m) x)

/-- Insert into a `strLt`-sorted list (helper for Python `sorted`). -/
def insertSorted (w : Wal) : List Wal → List Wal
  | [] => [w]
  | x :: xs => if strLt x w then x :: insertSorted w xs else w :: x :: xs

/-- Python `sorted` over strings (insertion sort, ascending). -/
def pySorted (s : List Wal) : List Wal := s.foldr insertSorted []

/-- Python `set.add`: the set is embedded as a duplicate-free list. -/
def setAdd (s : List Wal) (w : Wal) : List Wal :=
  if w ∈ s then s else s ++ [w]

/-- The characters of the `^[A-F0-9]{24}$` identifier regex. -/
def upperHexChars : List Char :=
  ['0', '1', '2', '3', '4', '5', '6', '7', '8', '9',
   'A', 'B', 'C', 'D', 'E', 'F']

/-- A valid WAL identifier: exactly 24 characters drawn from `[A-F0-9]`. -/
def validWal (w : Wal) : Bool :=
  w.length = 24 && w.all (fun c => c ∈ upperHexChars)

/-- Canonical identifier built from a timeline string and numeric
`segment_high` / `segment_low` fields. -/
def mkWal (t : List Char) (h l : Nat) : Wal :=
  t ++ fmtFixed 8 h ++ fmtFixed 8 l

/-- Canonical identifier with a single combined position value
(`segment_high * 0x100 + segment_low`, `segment_low < 0x100`). -/
def walC (t : List Char) (n : Nat) : Wal := mkWal t (n / 256) (n % 256)

/-- Combined `(segment_high, segment_low)` value of an identifier, as
parsed by the source (`none` when a field fails to parse). -/
def combinedZ (w : Wal) : Option Int := do
  let h ← parseHexInt (slice w 8 16)
  let l ← parseHexInt (slice w 16 24)
  pure (h * 256 + l)

/-! ## Embeddings of `src/exporter.py` -/

/-- `get_previous_wal` (exporter.py:68-73): decrement `segment_low` in
base 0x100 with borrow from `segment_high` (`//` is floor division,
`%` a non-negative remainder), reformat with `'%s%08X%08X'`. -/
def get_previous_wal (wal : Wal) : Option Wal := do
  let low0 ← parseHexInt (slice wal 16 24)
  let high0 ← parseHexInt (slice wal 8 16)
  pure (slice wal 0 8 ++ fmt08X (high0 + (low0 - 1).fdiv 0x100)
        ++ fmt08X ((low0 - 1).emod 0x100))

/-- `get_next_wal` (exporter.py:76-81): increment `segment_low` in base
0x100 with carry into `segment_high`. -/
def get_next_wal (wal : Wal) : Option Wal := do
  let low0 ← parseHexInt (slice wal 16 24)
  let high0 ← parseHexInt (slice wal 8 16)
  pure (slice wal 0 8 ++ fmt08X (high0 + (low0 + 1).fdiv 0x100)
        ++ fmt08X ((low0 + 1).emod 0x100))

/-- `is_before` (exporter.py:84-91): `False` on differing timelines
(before any parsing), otherwise compare
`segment_high * 0x100 + segment_low`. -/
def is_before (a b : Wal) : Option Bool :=
  if slice a 0 8 ≠ slice b 0 8 then pure false
  else do
    let ah ← parseHexInt (slice a 8 16)
    let al ← parseHexInt (slice a 16 24)
    let bh ← parseHexInt (slice b 8 16)
    let bl ← parseHexInt (slice b 16 24)
    pure (ah * 0x100 + al < bh * 0x100 + bl)

/-- The `walg_exception` gauge callback (exporter.py:145-148).  The
Python source is the conditional expression
`2 if bb else 0 + 3 if xl else 0 + 5 if re else 0`, which by Python
precedence parses as `2 if bb else ((0+3) if xl else ((0+5) if re
else 0))` — an if/elif chain, not a sum. -/
def exception_value (basebackup_exception xlog_exception remote_exception : Bool) : Nat :=
  if basebackup_exception then 2
  else if xlog_exception then 0 + 3
  else if remote_exception then 0 + 5
  else 0

/-- `pg_stat_archiver` snapshot row (exporter.py:294-299).  `NULL`able
`last_failed_wal` is an `Option`; times are POSIX timestamps embedded
as integers. -/
structure ArchiverStatus where
  archived_count : Int
  failed_count : Int
  last_archived_wal : Wal
  last_archived_time : Int
  last_failed_wal : Option Wal
  last_failed_time : Int
deriving DecidableEq, Repr

/-- The archiver-status cache fields of `Exporter` used by
`last_archive_status` (exporter.py:102-104, 277-281), plus the
`xlog_exception` flag so that flag (non-)updates are observable. -/
structure StatusCache where
  xlog_exception : Bool
  last_archive_check : Option Int
  archive_status : Option ArchiverStatus
deriving DecidableEq, Repr

/-- `last_archive_status` (exporter.py:277-281).  `query` is the
collaborator `_last_archive_status` call (exporter.py:283-303), which
raises (`Except.error`) when the connection or the query fails; `now`
is `datetime.datetime.now().timestamp()`.  The function body has no
`try`/`except`: a raised error leaves the state unchanged and
propagates to the caller. -/
def last_archive_status (query : Except Unit ArchiverStatus) (now : Int)
    (st : StatusCache) : StatusCache × Except Unit (Option ArchiverStatus) :=
  if st.last_archive_check = none ∨ (∃ c, st.last_archive_check = some c ∧ now - c > 1) then
    match query with
    | .error e => (st, .error e)
    | .ok s =>
        ({ st with archive_status := some s, last_archive_check := some now },
         .ok (some s))
  else
    (st, .ok st.archive_status)

/-- The reconciliation walk of `xlog_done_callback` (exporter.py:336-342):
step `last_xlog` forward while `is_before(last_xlog, target)`, adding
each stepped segment when `not new_error or find_remote_xlog(...)`.
`fuel` bounds the number of iterations; `none` marks either a raised
parse error or fuel exhaustion (the concrete loop would run longer than
the combined-position distance, which cannot happen on canonical
identifiers). -/
def extend_loop (remote : Wal → Bool) (new_error : Bool) (target : Wal) :
    Nat → Wal → List Wal → Nat → Option (List Wal × Nat)
  | 0, last_xlog, dones, added => do
      let b ← is_before last_xlog target
      if b then none else pure (dones, added)
  | fuel + 1, last_xlog, dones, added => do
      let b ← is_before last_xlog target
      if b then do
        let nxt ← get_next_wal last_xlog
        if !new_error || remote nxt then
          extend_loop remote new_error target fuel nxt (setAdd dones nxt) (added + 1)
        else
          extend_loop remote new_error target fuel nxt dones added
      else pure (dones, added)

/-- The guarded walk of `xlog_done_callback` (exporter.py:335-342): when
`archived_count > 0`, walk from `last_xlog` (the current maximum) to
`last_archived_wal`. -/
def extend_from (remote : Wal → Bool) (ast : ArchiverStatus) (dones : List Wal)
    (last_xlog : Wal) (new_error xlog_exception : Bool) :
    Option (List Wal × Nat × Bool) :=
  if ast.archived_count > 0 then do
    let fuel := match combinedZ last_xlog, combinedZ ast.last_archived_wal with
      | some a, some b => (b - a).toNat
      | _, _ => 0
    let (dones', added) ←
      extend_loop remote new_error ast.last_archived_wal fuel last_xlog dones 0
    pure (dones', added, xlog_exception)
  else
    pure (dones, 0, xlog_exception)

/-- The set-extension part of `xlog_done_callback` (exporter.py:321-344):
compute `error_on_range` / `new_error` from the archiver snapshot
(Python string comparisons, short-circuit `and`), then walk from
`max(xlogs_done)` to `last_archived_wal` when `archived_count > 0`.
Returns the new done list, the `xlog_added` counter and the
`xlog_exception` flag; `none` embeds a raised exception (for instance
`max()` on an empty set). -/
def xlog_done_extend (remote : Wal → Bool) (ast : ArchiverStatus)
    (dones : List Wal) : Option (List Wal × Nat × Bool) := do
  let last_xlog ← pyMax dones
  let error_on_range ← match ast.last_failed_wal with
    | none => pure false
    | some f => do
        let mn ← pyMin dones
        pure (strLt mn f)
  let new_error := match ast.last_failed_wal with
    | none => false
    | some f => strLt f last_xlog
  extend_from remote ast dones last_xlog new_error (error_on_range || new_error)

/-- The remote clean-up sweep of `update_basebackup` (exporter.py:263-275):
iterate over `sorted(xlogs_done)`, stop at the first segment found on
remote storage, remove the earlier ones. -/
def prune_loop (remote : Wal → Bool) :
    List Wal → List Wal → Nat → List Wal × Nat
  | [], dones, removed => (dones, removed)
  | x :: xs, dones, removed =>
      if remote x then (dones, removed)
      else prune_loop remote xs (dones.erase x) (removed + 1)

/-- The full prune sweep: `for xlog in sorted(self.xlogs_done): ...`. -/
def prune (remote : Wal → Bool) (dones : List Wal) : List Wal × Nat :=
  prune_loop remote (pySorted dones) dones 0

/-- One base-backup record, restricted to the fields
`compute_complex_metrics` reads (`wal_file_name`, `time`; the time is a
POSIX timestamp embedded as an integer). -/
structure BB where
  wal_file_name : Wal
  time : Int
deriving DecidableEq, Repr

/-- The local counters of `compute_complex_metrics`
(exporter.py:353-358). -/
structure MetricsAcc where
  missing_wal : Nat
  continious_wal : Nat
  oldest_valid_basebackup : Option Int
  valid_basebackup_count : Nat
deriving DecidableEq, Repr

/-- The `Exporter` state touched by `compute_complex_metrics`: the three
exception flags, the backup list, the done set, and the values last
written to the six gauges the function may set. -/
structure ExporterState where
  basebackup_exception : Bool
  xlog_exception : Bool
  remote_exception : Bool
  bbs : List BB
  xlogs_done : List Wal
  oldest_valid_basebackup_g : Int
  xlog_missing_g : Int
  continious_wal_g : Int
  valid_basebackup_count_g : Int
  useless_remote_wal_segment_g : Int
  xlog_since_last_bb_g : Int
deriving DecidableEq, Repr

/-- Inner walk of the backup loop (exporter.py:369-378):
`while current_xlog != bb['wal_file_name']`, counting the current
segment as continuous or as a gap, then stepping.  Fuel exhaustion or a
parse error yields `none`. -/
def scan_to_bb (dones : List Wal) (target : Wal) :
    Nat → Wal → MetricsAcc → Option (Wal × MetricsAcc)
  | fuel, current_xlog, acc =>
      if current_xlog = target then pure (current_xlog, acc)
      else match fuel with
        | 0 => none
        | fuel + 1 => do
            let acc :=
              if current_xlog ∈ dones then
                { acc with continious_wal := acc.continious_wal + 1 }
              else
                { acc with missing_wal := acc.missing_wal + 1,
                           continious_wal := 0,
                           oldest_valid_basebackup := none,
                           valid_basebackup_count := 0 }
            let nxt ← get_next_wal current_xlog
            scan_to_bb dones target fuel nxt acc

/-- Iteration fuel for a walk between two identifiers: their
combined-position distance (0 when a field does not parse; in that case
the walk itself fails on its first parse anyway). -/
def walkFuel (a b : Wal) : Nat :=
  match combinedZ a, combinedZ b with
  | some x, some y => (y - x).toNat
  | _, _ => 0

/-- The backup loop of `compute_complex_metrics` (exporter.py:360-378). -/
def bbs_loop (dones : List Wal) :
    List BB → Option Wal → MetricsAcc → Option (Option Wal × MetricsAcc)
  | [], current_xlog, acc => pure (current_xlog, acc)
  | bb :: rest, current_xlog, acc =>
      let acc := { acc with
        oldest_valid_basebackup :=
          match acc.oldest_valid_basebackup with
          | none => some bb.time
          | some t => some t,
        valid_basebackup_count := acc.valid_basebackup_count + 1 }
      match current_xlog with
      | none => bbs_loop dones rest (some bb.wal_file_name) acc
      | some cur => do
          let (cur', acc') ←
            scan_to_bb dones bb.wal_file_name (walkFuel cur bb.wal_file_name) cur acc
          bbs_loop dones rest (some cur') acc'

/-- The list comprehension `[xlog for xlog in self.xlogs_done if
is_before(current_xlog, xlog)]` (exporter.py:390-393). -/
def listAfter (cur : Wal) : List Wal → Option (List Wal)
  | [] => pure []
  | x :: xs => do
      let b ← is_before cur x
      let r ← listAfter cur xs
      pure (if b then x :: r else r)

/-- The master-position walk (exporter.py:382-399): while
`is_before(current_xlog, master_position)`, count continuity, and count
a gap only when some done segment sorts after the current one. -/
def master_walk (dones : List Wal) (master_position : Wal) :
    Nat → Wal → MetricsAcc → Option MetricsAcc
  | 0, current_xlog, acc => do
      let b ← is_before current_xlog master_position
      if b then none else pure acc
  | fuel + 1, current_xlog, acc => do
      let b ← is_before current_xlog master_position
      if b then do
        let acc ←
          if current_xlog ∈ dones then
            pure { acc with continious_wal := acc.continious_wal + 1 }
          else do
            let remote_xlog_after_current ← listAfter current_xlog dones
            if remote_xlog_after_current ≠ [] then
              pure { acc with missing_wal := acc.missing_wal + 1,
                              continious_wal := 0,
                              oldest_valid_basebackup := none,
                              valid_basebackup_count := 0 }
            else pure acc
        let nxt ← get_next_wal current_xlog
        master_walk dones master_position fuel nxt acc
      else pure acc

/-- Count, over a list, the elements for which an `Option Bool` test
yields `true`; `none` as soon as one test raises. -/
def countTrue (f : Wal → Option Bool) : List Wal → Option Nat
  | [] => pure 0
  | x :: xs => do
      let b ← f x
      let r ← countTrue f xs
      pure (if b then r + 1 else r)

/-- The local values computed by `compute_complex_metrics`
(exporter.py:349-407, 418-424): the backup loop, the unconditional
`master_position = max(self.xlogs_done)` (which raises — `none` — on an
empty done set), the guarded master walk, the useless-segment count and
the since-last-basebackup count. -/
def compute_outputs (st : ExporterState) : Option (MetricsAcc × Nat × Nat) := do
  let acc0 : MetricsAcc :=
    { missing_wal := 0, continious_wal := 0,
      oldest_valid_basebackup := none, valid_basebackup_count := 0 }
  let pr ← bbs_loop st.xlogs_done st.bbs none acc0
  let master_position ← pyMax st.xlogs_done
  let acc ← match pr.1 with
    | none => pure pr.2
    | some cur =>
        master_walk st.xlogs_done master_position (walkFuel cur master_position) cur pr.2
  let useless_remote_wal ← match st.bbs with
    | [] => pure 0
    | b0 :: _ => countTrue (fun w => is_before w b0.wal_file_name) st.xlogs_done
  let xlog_since_last_bb ← match st.bbs.getLast? with
    | none => pure 0
    | some bl => countTrue (fun x => is_before bl.wal_file_name x) st.xlogs_done
  pure (acc, useless_remote_wal, xlog_since_last_bb)

/-- The gauge writes of `compute_complex_metrics` (exporter.py:408-416,
425): the oldest-valid gauge only when a value was computed, the
useless-segment gauge only when the backup list is non-empty; the other
four gauges unconditionally. -/
def write_gauges (st : ExporterState) (out : MetricsAcc × Nat × Nat) : ExporterState :=
  { st with
    oldest_valid_basebackup_g :=
      match out.1.oldest_valid_basebackup with
      | some t => t
      | none => st.oldest_valid_basebackup_g,
    xlog_missing_g := out.1.missing_wal,
    continious_wal_g := out.1.continious_wal,
    valid_basebackup_count_g := out.1.valid_basebackup_count,
    useless_remote_wal_segment_g :=
      match st.bbs with
      | [] => st.useless_remote_wal_segment_g
      | _ :: _ => out.2.1,
    xlog_since_last_bb_g := out.2.2 }

/-- `compute_complex_metrics` (exporter.py:349-425) as a state
transformer: compute the counters, then publish them to the gauges. -/
def compute_complex_metrics (st : ExporterState) : Option ExporterState :=
  (compute_outputs st).map (write_gauges st)

/-- The computed `oldest_valid_basebackup` local of
`compute_complex_metrics` (`none` embeds Python `None`). -/
def oldest_valid_result (st : ExporterState) : Option (Option Int) :=
  (compute_outputs st).map (fun out => out.1.oldest_valid_basebackup)

/-! ## Concrete inputs used by counterexamples and witnesses -/

/-- Canonical test segment on timeline `00000001`, `segment_high = 0`,
`segment_low = n`. -/
def segEx (n : Nat) : Wal := mkWal ("00000001".toList) 0 n

/-- A valid 24-hex identifier whose low field is `0x100` (denormalized:
`segment_low ≥ 0x100`). -/
def walDenorm : Wal := "000000000000000000000100".toList

/-- The largest canonical identifier of a timeline:
`segment_high = FFFFFFFF`, `segment_low = FF`. -/
def walTop : Wal := "00000001FFFFFFFF000000FF".toList

/-- An all-gauges-zero, all-flags-clear exporter state with the given
backups and done segments. -/
def mkState (bbs : List BB) (dones : List Wal) : ExporterState :=
  { basebackup_exception := false, xlog_exception := false,
    remote_exception := false, bbs := bbs, xlogs_done := dones,
    oldest_valid_basebackup_g := 0, xlog_missing_g := 0,
    continious_wal_g := 0, valid_basebackup_count_g := 0,
    useless_remote_wal_segment_g := 0, xlog_since_last_bb_g := 0 }

/-- The two-backup state of the continuity example: backups starting at
segments 100 and 103, done set `{100, 103}` (101 and 102 missing). -/
def stGap : ExporterState :=
  mkState [⟨segEx 100, 1000⟩, ⟨segEx 103, 2000⟩] [segEx 100, segEx 103]

/-- Archiver snapshot for the extension scenario: one archived segment
beyond the known maximum, and a failure reported at that very segment
(not older than the maximum). -/
def astNewFail : ArchiverStatus :=
  { archived_count := 5, failed_count := 1,
    last_archived_wal := segEx 17, last_archived_time := 50,
    last_failed_wal := some (segEx 17), last_failed_time := 49 }

/-- A status cache holding a previous good snapshot, stale by more than
one second. -/
def cacheEx : StatusCache :=
  { xlog_exception := false, last_archive_check := some 0,
    archive_status := some astNewFail }

/-! ## Digit-level lemmas -/

lemma hexVal_hexDigitChar : ∀ d < 16, hexVal (hexDigitChar d) = d := by decide

lemma isHexDigitB_hexDigitChar : ∀ d < 16, isHexDigitB (hexDigitChar d) = true := by decide

lemma hexDigitChar_mem : ∀ d < 16, hexDigitChar d ∈ upperHexChars := by decide

lemma hexVal_lt_16 {c : Char} (h : c ∈ upperHexChars) : hexVal c < 16 := by
  unfold upperHexChars at h
  fin_cases h <;> decide

lemma isHexDigitB_of_mem {c : Char} (h : c ∈ upperHexChars) : isHexDigitB c = true := by
  unfold upperHexChars at h
  fin_cases h <;> decide

lemma hexDigitChar_hexVal {c : Char} (h : c ∈ upperHexChars) :
    hexDigitChar (hexVal c) = c := by
  unfold upperHexChars at h
  fin_cases h <;> decide

lemma hexDigitChar_lt_iff : ∀ d < 16, ∀ e < 16,
    (hexDigitChar d < hexDigitChar e ↔ d < e) := by decide

lemma ne_dash_of_mem {c : Char} (h : c ∈ upperHexChars) : c ≠ '-' := by
  unfold upperHexChars at h
  fin_cases h <;> decide

/-! ## `fmtFixed` lemmas -/

lemma fmtFixed_length (w x : Nat) : (fmtFixed w x).length = w := by
  induction w generalizing x with
  | zero => rfl
  | succ w ih => simp [fmtFixed, ih]

lemma fmtFixed_mem {w x : Nat} {c : Char} (h : c ∈ fmtFixed w x) :
    c ∈ upperHexChars := by
  induction w generalizing x with
  | zero => simp [fmtFixed] at h
  | succ w ih =>
    simp only [fmtFixed, List.mem_append, List.mem_singleton] at h
    rcases h with h | h
    · exact ih h
    · subst h; exact hexDigitChar_mem _ (Nat.mod_lt _ (by norm_num))

lemma valHex_append_digit (s : List Char) (c : Char) :
    valHex (s ++ [c]) = valHex s * 16 + hexVal c := by
  simp [valHex, List.foldl_append]

lemma valHex_fmtFixed {w x : Nat} (h : x < 16 ^ w) : valHex (fmtFixed w x) = x := by
  induction w generalizing x with
  | zero =>
    have : x = 0 := by simpa using h
    simp [fmtFixed, valHex, this]
  | succ w ih =>
    have hdiv : x / 16 < 16 ^ w := by
      rw [Nat.div_lt_iff_lt_mul (by norm_num)]
      calc x < 16 ^ (w + 1) := h
        _ = 16 ^ w * 16 := by ring
    rw [fmtFixed, valHex_append_digit, ih hdiv,
        hexVal_hexDigitChar _ (Nat.mod_lt _ (by norm_num))]
    omega

lemma fmtFixed_inj {w x y : Nat} (hx : x < 16 ^ w) (hy : y < 16 ^ w)
    (h : fmtFixed w x = fmtFixed w y) : x = y := by
  have := congrArg valHex h
  rwa [valHex_fmtFixed hx, valHex_fmtFixed hy] at this

lemma fmtFixed_valHex {s : List Char} (h : ∀ c ∈ s, c ∈ upperHexChars) :
    fmtFixed s.length (valHex s) = s := by
  induction s using List.reverseRecOn with
  | nil => rfl
  | append_singleton s c ih =>
    have hc : c ∈ upperHexChars := h c (by simp)
    have hs : ∀ d ∈ s, d ∈ upperHexChars := fun d hd => h d (by simp [hd])
    have hval : hexVal c < 16 := hexVal_lt_16 hc
    have hdiv : (valHex s * 16 + hexVal c) / 16 = valHex s := by omega
    have hmod : (valHex s * 16 + hexVal c) % 16 = hexVal c := by omega
    rw [List.length_append, List.length_singleton, valHex_append_digit, fmtFixed,
        hdiv, hmod, ih hs, hexDigitChar_hexVal hc]

lemma fmtFixed_zero (w : Nat) : fmtFixed w 0 = List.replicate w '0' := by
  induction w with
  | zero => rfl
  | succ w ih => rw [fmtFixed, Nat.zero_div, Nat.zero_mod, ih, List.replicate_succ']; rfl

/-! ## Parsing lemmas -/

lemma parseHexCore_eq {s : List Char} (h : ∀ c ∈ s, c ∈ upperHexChars) (acc : Nat) :
    parseHexCore s acc = some (s.foldl (fun a c => a * 16 + hexVal c) acc) := by
  induction s generalizing acc with
  | nil => rfl
  | cons c cs ih =>
    rw [parseHexCore, if_pos (isHexDigitB_of_mem (h c (by simp))), List.foldl_cons]
    exact ih (fun d hd => h d (by simp [hd])) _

lemma parseHexNat_eq {s : List Char} (hne : s ≠ []) (h : ∀ c ∈ s, c ∈ upperHexChars) :
    parseHexNat s = some (valHex s) := by
  cases s with
  | nil => exact absurd rfl hne
  | cons c cs =>
    have : parseHexNat (c :: cs) = parseHexCore (c :: cs) 0 := rfl
    rw [this, parseHexCore_eq h 0]
    rfl

lemma parseHexInt_eq {s : List Char} (hne : s ≠ []) (h : ∀ c ∈ s, c ∈ upperHexChars) :
    parseHexInt s = some ((valHex s : Int)) := by
  cases s with
  | nil => exact absurd rfl hne
  | cons c cs =>
    have hc : c ≠ '-' := ne_dash_of_mem (h c (by simp))
    rw [parseHexInt, if_neg (by simpa using hc), parseHexNat_eq (by simp) h]
    rfl

lemma parseHexNat_fmtFixed {w x : Nat} (hw : 0 < w) (hx : x < 16 ^ w) :
    parseHexNat (fmtFixed w x) = some x := by
  have hne : fmtFixed w x ≠ [] := by
    intro hcon
    have := fmtFixed_length w x
    rw [hcon] at this
    simp at this
    omega
  rw [parseHexNat_eq hne (fun c hc => fmtFixed_mem hc), valHex_fmtFixed hx]

lemma parseHexInt_fmtFixed {w x : Nat} (hw : 0 < w) (hx : x < 16 ^ w) :
    parseHexInt (fmtFixed w x) = some ((x : Int)) := by
  have hne : fmtFixed w x ≠ [] := by
    intro hcon
    have := fmtFixed_length w x
    rw [hcon] at this
    simp at this
    omega
  rw [parseHexInt_eq hne (fun c hc => fmtFixed_mem hc), valHex_fmtFixed hx]

/-! ## `'%08X'` formatting bridge -/

lemma toHexUpperAux_fuel_irrel :
    ∀ f g n, n < 16 ^ (f + 1) → n < 16 ^ (g + 1) →
      toHexUpperAux (f + 1) n = toHexUpperAux (g + 1) n := by
  intro f
  induction f with
  | zero =>
    intro g n hf hg
    have h16 : n < 16 := by simpa using hf
    cases g with
    | zero => rfl
    | succ g => simp [toHexUpperAux, h16]
  | succ f ih =>
    intro g n hf hg
    by_cases h16 : n < 16
    · cases g with
      | zero => simp [toHexUpperAux, h16]
      | succ g => simp [toHexUpperAux, h16]
    · have hg1 : 1 ≤ g := by
        by_contra hcon
        interval_cases g
        · simp at hg; omega
      obtain ⟨g', rfl⟩ : ∃ g', g = g' + 1 := ⟨g - 1, by omega⟩
      have hfd : n / 16 < 16 ^ (f + 1) := by
        rw [Nat.div_lt_iff_lt_mul (by norm_num)]
        calc n < 16 ^ (f + 1 + 1) := hf
          _ = 16 ^ (f + 1) * 16 := by ring
      have hgd : n / 16 < 16 ^ (g' + 1) := by
        rw [Nat.div_lt_iff_lt_mul (by norm_num)]
        calc n < 16 ^ (g' + 1 + 1) := hg
          _ = 16 ^ (g' + 1) * 16 := by ring
      have l1 : toHexUpperAux (f + 1 + 1) n
          = toHexUpperAux (f + 1) (n / 16) ++ [hexDigitChar (n % 16)] := by
        conv_lhs => rw [toHexUpperAux]
        rw [if_neg h16]
      have l2 : toHexUpperAux (g' + 1 + 1) n
          = toHexUpperAux (g' + 1) (n / 16) ++ [hexDigitChar (n % 16)] := by
        conv_lhs => rw [toHexUpperAux]
        rw [if_neg h16]
      rw [l1, l2, ih g' (n / 16) hfd hgd]

lemma toHexUpper_eq_aux {f n : Nat} (h : n < 16 ^ (f + 1)) (hn : n < 16 ^ 40) :
    toHexUpper n = toHexUpperAux (f + 1) n := by
  have h40 : n < 16 ^ (39 + 1) := hn
  exact toHexUpperAux_fuel_irrel 39 f n h40 h

lemma padZero_aux_eq_fmtFixed :
    ∀ w x, 1 ≤ w → x < 16 ^ w → padZero w (toHexUpperAux w x) = fmtFixed w x := by
  intro w
  induction w with
  | zero => intro x h; omega
  | succ w ih =>
    intro x _ hx
    by_cases h16 : x < 16
    · have hx16 : x % 16 = x := Nat.mod_eq_of_lt h16
      rw [toHexUpperAux, if_pos h16]
      cases w with
      | zero =>
        simp [padZero, fmtFixed, hx16]
      | succ w =>
        have hdiv : x / 16 = 0 := Nat.div_eq_of_lt h16
        rw [fmtFixed, hdiv, fmtFixed_zero, padZero, hx16]
        simp [List.replicate_succ']
    · have hw1 : 1 ≤ w := by
        by_contra hcon
        interval_cases w
        · simp at hx; omega
      have hxd : x / 16 < 16 ^ w := by
        rw [Nat.div_lt_iff_lt_mul (by norm_num)]
        calc x < 16 ^ (w + 1) := hx
          _ = 16 ^ w * 16 := by ring
      have l1 : toHexUpperAux (w + 1) x
          = toHexUpperAux w (x / 16) ++ [hexDigitChar (x % 16)] := by
        conv_lhs => rw [toHexUpperAux]
        rw [if_neg h16]
      rw [l1, fmtFixed, ← ih (x / 16) hw1 hxd, padZero, padZero,
          List.length_append, List.length_singleton, List.append_assoc]
      have hcount : w + 1 - ((toHexUpperAux w (x / 16)).length + 1)
          = w - (toHexUpperAux w (x / 16)).length := by omega
      rw [hcount]

lemma fmt08X_eq_fmtFixed {x : Nat} (hx : x < 16 ^ 8) :
    fmt08X ((x : Int)) = fmtFixed 8 x := by
  rw [fmt08X, if_neg (by omega)]
  have h40 : x < 16 ^ 40 := lt_of_lt_of_le hx (by norm_num)
  have htn : ((x : Int)).toNat = x := by simp
  rw [htn, toHexUpper_eq_aux (f := 7) hx h40,
      padZero_aux_eq_fmtFixed 8 x (by norm_num) hx]

/-! ## Python string-order lemmas -/

lemma strLt_append_same (a : List Char) (b c : List Char) :
    strLt (a ++ b) (a ++ c) = strLt b c := by
  induction a with
  | nil => rfl
  | cons x xs ih => simp [strLt, ih]

lemma strLt_irrefl (a : List Char) : strLt a a = false := by
  have := strLt_append_same a [] []
  simpa using this

lemma strLt_same_length_append {A B : List Char} (C D : List Char)
    (h : A.length = B.length) :
    strLt (A ++ C) (B ++ D) = (strLt A B || (A = B && strLt C D)) := by
  induction A generalizing B with
  | nil =>
    cases B with
    | nil => simp [strLt]
    | cons b bs => simp at h
  | cons a as ih =>
    cases B with
    | nil => simp at h
    | cons b bs =>
      simp only [List.length_cons, Nat.add_right_cancel_iff] at h
      by_cases hab : a < b
      · simp [strLt, hab]
      · by_cases hba : b < a
        · have hne : ¬(a = b) := by rintro rfl; exact absurd hba (lt_irrefl a)
          simp [strLt, hab, hba, hne]
        · have heq : a = b := le_antisymm (not_lt.mp hba) (not_lt.mp hab)
          subst heq
          simp only [List.cons_append, strLt, if_neg (lt_irrefl a)]
          show strLt (as ++ C) (bs ++ D)
              = (strLt as bs || decide (a :: as = a :: bs) && strLt C D)
          rw [ih h]
          simp [List.cons.injEq]

lemma strLt_trans {a b c : List Char} (hab : strLt a b = true)
    (hbc : strLt b c = true) : strLt a c = true := by
  induction a generalizing b c with
  | nil =>
    cases b with
    | nil => simp [strLt] at hab
    | cons y ys =>
      cases c with
      | nil => simp [strLt] at hbc
      | cons z zs => simp [strLt]
  | cons x xs ih =>
    cases b with
    | nil => simp [strLt] at hab
    | cons y ys =>
      cases c with
      | nil => simp [strLt] at hbc
      | cons z zs =>
        simp only [strLt] at hab hbc ⊢
        by_cases hxy : x < y
        · by_cases hyz : y < z
          · have hxz : x < z := lt_trans hxy hyz
            simp [hxz]
          · by_cases hzy : z < y
            · simp [hyz, hzy] at hbc
            · have : y = z := le_antisymm (not_lt.mp hzy) (not_lt.mp hyz)
              subst this
              simp [hxy]
        · by_cases hyx : y < x
          · simp [hxy, hyx] at hab
          · have : x = y := le_antisymm (not_lt.mp hyx) (not_lt.mp hxy)
            subst this
            simp only [if_neg (lt_irrefl x)] at hab
            by_cases hxz : x < z
            · simp [hxz]
            · by_cases hzx : z < x
              · simp [hxz, hzx] at hbc
              · have : x = z := le_antisymm (not_lt.mp hzx) (not_lt.mp hxz)
                subst this
                simp only [if_neg (lt_irrefl x)] at hbc ⊢
                exact ih hab hbc

lemma strLt_asymm {a b : List Char} (h : strLt a b = true) : strLt b a = false := by
  by_contra hcon
  have hba : strLt b a = true := by
    cases hb : strLt b a
    · exact absurd hb hcon
    · rfl
  have := strLt_trans h hba
  rw [strLt_irrefl] at this
  exact Bool.false_ne_true this

lemma strLt_single (c d : Char) : strLt [c] [d] = decide (c < d) := by
  by_cases h : c < d
  · simp [strLt, h]
  · by_cases h2 : d < c
    · simp [strLt, h, h2]
    · simp [strLt, h, h2]

lemma strLt_fmtFixed {w x y : Nat} (hx : x < 16 ^ w) (hy : y < 16 ^ w) :
    strLt (fmtFixed w x) (fmtFixed w y) = decide (x < y) := by
  induction w generalizing x y with
  | zero =>
    have hx0 : x = 0 := by simpa using hx
    have hy0 : y = 0 := by simpa using hy
    subst hx0; subst hy0
    simp [fmtFixed, strLt]
  | succ w ih =>
    have hdx : x / 16 < 16 ^ w := by
      rw [Nat.div_lt_iff_lt_mul (by norm_num)]
      calc x < 16 ^ (w + 1) := hx
        _ = 16 ^ w * 16 := by ring
    have hdy : y / 16 < 16 ^ w := by
      rw [Nat.div_lt_iff_lt_mul (by norm_num)]
      calc y < 16 ^ (w + 1) := hy
        _ = 16 ^ w * 16 := by ring
    rw [fmtFixed, fmtFixed,
        strLt_same_length_append _ _ (by rw [fmtFixed_length, fmtFixed_length]),
        ih hdx hdy, strLt_single]
    have hdig : (hexDigitChar (x % 16) < hexDigitChar (y % 16)) ↔ x % 16 < y % 16 :=
      hexDigitChar_lt_iff _ (Nat.mod_lt _ (by norm_num)) _ (Nat.mod_lt _ (by norm_num))
    have heqiff : (fmtFixed w (x / 16) = fmtFixed w (y / 16)) ↔ x / 16 = y / 16 :=
      ⟨fun hq => fmtFixed_inj hdx hdy hq, fun hq => by rw [hq]⟩
    have d1 : decide (hexDigitChar (x % 16) < hexDigitChar (y % 16))
        = decide (x % 16 < y % 16) := decide_eq_decide.mpr hdig
    have d2 : decide (fmtFixed w (x / 16) = fmtFixed w (y / 16))
        = decide (x / 16 = y / 16) := decide_eq_decide.mpr heqiff
    rw [d1, d2]
    rcases Nat.lt_trichotomy (x / 16) (y / 16) with h | h | h
    · have b1 : decide (x / 16 < y / 16) = true := decide_eq_true h
      have b4 : decide (x < y) = true := decide_eq_true (by omega)
      rw [b1, b4]
      simp
    · have b1 : decide (x / 16 < y / 16) = false := decide_eq_false (by omega)
      have b2 : decide (x / 16 = y / 16) = true := decide_eq_true h
      have b34 : decide (x < y) = decide (x % 16 < y % 16) :=
        decide_eq_decide.mpr (by omega)
      rw [b1, b2, b34]
      simp
    · have b1 : decide (x / 16 < y / 16) = false := decide_eq_false (by omega)
      have b2 : decide (x / 16 = y / 16) = false := decide_eq_false (by omega)
      have b4 : decide (x < y) = false := decide_eq_false (by omega)
      rw [b1, b2, b4]
      simp

lemma strLt_conn {a b : List Char} (hab : strLt a b = false)
    (hba : strLt b a = false) : a = b := by
  induction a generalizing b with
  | nil =>
    cases b with
    | nil => rfl
    | cons y ys => simp [strLt] at hab
  | cons x xs ih =>
    cases b with
    | nil => simp [strLt] at hba
    | cons y ys =>
      simp only [strLt] at hab hba
      by_cases hxy : x < y
      · simp [hxy] at hab
      · by_cases hyx : y < x
        · simp [hxy, hyx] at hab hba
        · have : x = y := le_antisymm (not_lt.mp hyx) (not_lt.mp hxy)
          subst this
          simp only [if_neg (lt_irrefl x)] at hab hba
          rw [ih hab hba]

lemma strLt_trichotomy (a b : List Char) :
    strLt a b = true ∨ a = b ∨ strLt b a = true := by
  cases hab : strLt a b
  · cases hba : strLt b a
    · exact Or.inr (Or.inl (strLt_conn hab hba))
    · exact Or.inr (Or.inr rfl)
  · exact Or.inl rfl

/-! ## Slice lemmas for 8+8+8 concatenations -/

lemma slice_first8 {t : List Char} (r : List Char) (ht : t.length = 8) :
    slice (t ++ r) 0 8 = t := by
  rw [slice, List.drop_zero]
  exact List.take_left' ht

lemma slice_first8' {t a b : List Char} (ht : t.length = 8) :
    slice (t ++ a ++ b) 0 8 = t := by
  rw [List.append_assoc]
  exact slice_first8 _ ht

lemma slice_mid8 {t a : List Char} (r : List Char) (ht : t.length = 8)
    (ha : a.length = 8) : slice (t ++ a ++ r) 8 16 = a := by
  rw [slice, List.append_assoc, List.drop_left' ht]
  exact List.take_left' ha

lemma slice_last8 {t a b : List Char} (ht : t.length = 8) (ha : a.length = 8)
    (hb : b.length = 8) : slice (t ++ a ++ b) 16 24 = b := by
  rw [slice, List.drop_left' (by rw [List.length_append, ht, ha])]
  have h8 : (24 : Nat) - 16 = 8 := rfl
  rw [h8, ← hb, List.take_length]

/-! ## Canonical identifier (`mkWal`) bridge lemmas -/

lemma mkWal_timeline {t : List Char} (ht : t.length = 8) (h l : Nat) :
    slice (mkWal t h l) 0 8 = t := by
  rw [mkWal, List.append_assoc]
  exact slice_first8 _ ht

lemma mkWal_high {t : List Char} (ht : t.length = 8) (h l : Nat) :
    slice (mkWal t h l) 8 16 = fmtFixed 8 h :=
  slice_mid8 _ ht (fmtFixed_length 8 h)

lemma mkWal_low {t : List Char} (ht : t.length = 8) (h l : Nat) :
    slice (mkWal t h l) 16 24 = fmtFixed 8 l :=
  slice_last8 ht (fmtFixed_length 8 h) (fmtFixed_length 8 l)

lemma mkWal_length {t : List Char} (ht : t.length = 8) (h l : Nat) :
    (mkWal t h l).length = 24 := by
  rw [mkWal, List.length_append, List.length_append, ht,
      fmtFixed_length, fmtFixed_length]

lemma mkWal_inj {t t' : List Char} (ht : t.length = 8) (ht' : t'.length = 8)
    {h l h' l' : Nat} (hh : h < 16 ^ 8) (hl : l < 16 ^ 8)
    (hh' : h' < 16 ^ 8) (hl' : l' < 16 ^ 8)
    (heq : mkWal t h l = mkWal t' h' l') : t = t' ∧ h = h' ∧ l = l' := by
  have e1 : t = t' := by
    have := congrArg (fun w => slice w 0 8) heq
    simpa [mkWal_timeline ht, mkWal_timeline ht'] using this
  have e2 : fmtFixed 8 h = fmtFixed 8 h' := by
    have := congrArg (fun w => slice w 8 16) heq
    simpa [mkWal_high ht, mkWal_high ht'] using this
  have e3 : fmtFixed 8 l = fmtFixed 8 l' := by
    have := congrArg (fun w => slice w 16 24) heq
    simpa [mkWal_low ht, mkWal_low ht'] using this
  exact ⟨e1, fmtFixed_inj hh hh' e2, fmtFixed_inj hl hl' e3⟩

lemma valHex_lt {s : List Char} (h : ∀ c ∈ s, c ∈ upperHexChars) :
    valHex s < 16 ^ s.length := by
  induction s using List.reverseRecOn with
  | nil => simp [valHex]
  | append_singleton s c ih =>
    have hc : hexVal c < 16 := hexVal_lt_16 (h c (by simp))
    have hs := ih (fun d hd => h d (by simp [hd]))
    rw [valHex_append_digit, List.length_append, List.length_singleton, pow_succ]
    calc valHex s * 16 + hexVal c < valHex s * 16 + 16 := by omega
      _ = (valHex s + 1) * 16 := by ring
      _ ≤ 16 ^ s.length * 16 := by
          have : valHex s + 1 ≤ 16 ^ s.length := hs
          exact Nat.mul_le_mul_right 16 this

lemma validWal_mkWal {t : List Char} (ht : t.length = 8)
    (htc : ∀ c ∈ t, c ∈ upperHexChars) (h l : Nat) :
    validWal (mkWal t h l) = true := by
  rw [validWal]
  refine Bool.and_eq_true_iff.mpr ⟨by rw [mkWal_length ht]; simp, ?_⟩
  rw [List.all_eq_true]
  intro c hc
  rw [mkWal, List.mem_append, List.mem_append] at hc
  rcases hc with (hc | hc) | hc
  · exact decide_eq_true (htc c hc)
  · exact decide_eq_true (fmtFixed_mem hc)
  · exact decide_eq_true (fmtFixed_mem hc)

lemma valid_decomp {w : Wal} (hv : validWal w = true) :
    w = mkWal (slice w 0 8) (valHex (slice w 8 16)) (valHex (slice w 16 24)) ∧
      (slice w 0 8).length = 8 ∧
      (∀ c ∈ slice w 0 8, c ∈ upperHexChars) ∧
      valHex (slice w 8 16) < 16 ^ 8 ∧ valHex (slice w 16 24) < 16 ^ 8 := by
  rw [validWal, Bool.and_eq_true_iff] at hv
  obtain ⟨hlen, hall⟩ := hv
  have hlen24 : w.length = 24 := by simpa using hlen
  have hmem : ∀ c ∈ w, c ∈ upperHexChars := by
    intro c hc
    have := List.all_eq_true.mp hall c hc
    exact of_decide_eq_true this
  have ht8 : (slice w 0 8).length = 8 := by
    rw [slice, List.drop_zero, List.length_take, hlen24]; omega
  have hm8 : (slice w 8 16).length = 8 := by
    rw [slice, List.length_take, List.length_drop, hlen24]; omega
  have hl8 : (slice w 16 24).length = 8 := by
    rw [slice, List.length_take, List.length_drop, hlen24]; omega
  have htm : ∀ c ∈ slice w 0 8, c ∈ upperHexChars := by
    intro c hc
    rw [slice, List.drop_zero] at hc
    exact hmem c (List.take_subset _ _ hc)
  have hmm : ∀ c ∈ slice w 8 16, c ∈ upperHexChars := by
    intro c hc
    rw [slice] at hc
    exact hmem c (List.drop_subset _ _ (List.take_subset _ _ hc))
  have hlm : ∀ c ∈ slice w 16 24, c ∈ upperHexChars := by
    intro c hc
    rw [slice] at hc
    exact hmem c (List.drop_subset _ _ (List.take_subset _ _ hc))
  have hvm : valHex (slice w 8 16) < 16 ^ 8 := by
    have := valHex_lt (s := slice w 8 16) hmm
    rwa [hm8] at this
  have hvl : valHex (slice w 16 24) < 16 ^ 8 := by
    have := valHex_lt (s := slice w 16 24) hlm
    rwa [hl8] at this
  refine ⟨?_, ht8, htm, hvm, hvl⟩
  have e2 : fmtFixed 8 (valHex (slice w 8 16)) = slice w 8 16 := by
    have := fmtFixed_valHex hmm
    rwa [hm8] at this
  have e3 : fmtFixed 8 (valHex (slice w 16 24)) = slice w 16 24 := by
    have := fmtFixed_valHex hlm
    rwa [hl8] at this
  rw [mkWal, e2, e3]
  rw [slice, slice, slice, List.drop_zero]
  have e5 : (w.drop 8).drop 8 = w.drop 16 := by
    rw [List.drop_drop]
  have e4 : (w.drop 16).take 8 = w.drop 16 := by
    apply List.take_of_length_le
    rw [List.length_drop, hlen24]
  calc w = w.take 8 ++ w.drop 8 := (List.take_append_drop 8 w).symm
    _ = w.take 8 ++ ((w.drop 8).take 8 ++ (w.drop 8).drop 8) :=
        congrArg (fun z => w.take 8 ++ z) (List.take_append_drop 8 (w.drop 8)).symm
    _ = w.take 8 ++ (w.drop 8).take 8 ++ (w.drop 16).take 8 := by
        rw [e5, e4, List.append_assoc]

/-! ## Segment arithmetic on canonical identifiers -/

lemma get_next_wal_mkWal {t : List Char} (ht : t.length = 8) {h l : Nat}
    (hh : h < 16 ^ 8) (hl : l < 16 ^ 8) (hov : h + (l + 1) / 256 < 16 ^ 8) :
    get_next_wal (mkWal t h l)
      = some (mkWal t (h + (l + 1) / 256) ((l + 1) % 256)) := by
  rw [get_next_wal, mkWal_low ht, mkWal_high ht, mkWal_timeline ht,
      parseHexInt_fmtFixed (by norm_num) hl, parseHexInt_fmtFixed (by norm_num) hh]
  show some (t ++ fmt08X ((h : Int) + ((l : Int) + 1).fdiv 256)
      ++ fmt08X (((l : Int) + 1).emod 256)) = _
  have eX : (h : Int) + ((l : Int) + 1).fdiv 256
      = ((h + (l + 1) / 256 : Nat) : Int) := by
    rw [Int.fdiv_eq_ediv _ (by norm_num)]
    push_cast
    ring
  have eY : ((l : Int) + 1).emod 256 = (((l + 1) % 256 : Nat) : Int) := by
    show ((l : Int) + 1) % 256 = _
    push_cast
    ring
  have hm : (l + 1) % 256 < 16 ^ 8 :=
    lt_of_lt_of_le (Nat.mod_lt _ (by norm_num)) (by norm_num)
  rw [eX, eY, fmt08X_eq_fmtFixed hov, fmt08X_eq_fmtFixed hm]
  rfl

lemma get_previous_wal_mkWal_pos {t : List Char} (ht : t.length = 8) {h l : Nat}
    (hh : h < 16 ^ 8) (hl : l < 16 ^ 8) (hl1 : 1 ≤ l)
    (hov : h + (l - 1) / 256 < 16 ^ 8) :
    get_previous_wal (mkWal t h l)
      = some (mkWal t (h + (l - 1) / 256) ((l - 1) % 256)) := by
  rw [get_previous_wal, mkWal_low ht, mkWal_high ht, mkWal_timeline ht,
      parseHexInt_fmtFixed (by norm_num) hl, parseHexInt_fmtFixed (by norm_num) hh]
  show some (t ++ fmt08X ((h : Int) + ((l : Int) - 1).fdiv 256)
      ++ fmt08X (((l : Int) - 1).emod 256)) = _
  have ec : ((l : Int) - 1) = ((l - 1 : Nat) : Int) := by
    have : ((l : Int)) = ((l - 1 : Nat) : Int) + 1 := by
      push_cast [hl1]
      ring
    rw [this]
    ring
  have eX : (h : Int) + ((l : Int) - 1).fdiv 256
      = ((h + (l - 1) / 256 : Nat) : Int) := by
    rw [ec, Int.fdiv_eq_ediv _ (by norm_num)]
    push_cast
    ring
  have eY : ((l : Int) - 1).emod 256 = (((l - 1) % 256 : Nat) : Int) := by
    rw [ec]
    show ((l - 1 : Nat) : Int) % 256 = _
    push_cast
    ring
  have hm : (l - 1) % 256 < 16 ^ 8 :=
    lt_of_lt_of_le (Nat.mod_lt _ (by norm_num)) (by norm_num)
  rw [eX, eY, fmt08X_eq_fmtFixed hov, fmt08X_eq_fmtFixed hm]
  rfl

lemma get_previous_wal_mkWal_borrow {t : List Char} (ht : t.length = 8) {h : Nat}
    (hh : h < 16 ^ 8) (hh1 : 1 ≤ h) :
    get_previous_wal (mkWal t h 0) = some (mkWal t (h - 1) 255) := by
  rw [get_previous_wal, mkWal_low ht, mkWal_high ht, mkWal_timeline ht,
      parseHexInt_fmtFixed (by norm_num) (by norm_num : (0 : Nat) < 16 ^ 8),
      parseHexInt_fmtFixed (by norm_num) hh]
  show some (t ++ fmt08X ((h : Int) + ((0 : Int) - 1).fdiv 256)
      ++ fmt08X (((0 : Int) - 1).emod 256)) = _
  have e1 : ((0 : Int) - 1).fdiv 256 = -1 := by decide
  have e2 : ((0 : Int) - 1).emod 256 = 255 := by decide
  have e3 : (h : Int) + -1 = ((h - 1 : Nat) : Int) := by
    push_cast [hh1]
    ring
  have e4 : ((255 : Int)) = ((255 : Nat) : Int) := by norm_num
  rw [e1, e2, e3, e4, fmt08X_eq_fmtFixed (by omega), fmt08X_eq_fmtFixed (by norm_num)]
  rfl

lemma get_previous_wal_mkWal_zero {t : List Char} (ht : t.length = 8) :
    get_previous_wal (mkWal t 0 0)
      = some (t ++ ('-' :: fmtFixed 7 1) ++ fmtFixed 8 255) := by
  rw [get_previous_wal, mkWal_low ht, mkWal_high ht, mkWal_timeline ht,
      parseHexInt_fmtFixed (by norm_num) (by norm_num : (0 : Nat) < 16 ^ 8)]
  show some (t ++ fmt08X ((0 : Int) + ((0 : Int) - 1).fdiv 256)
      ++ fmt08X (((0 : Int) - 1).emod 256)) = _
  have e1 : ((0 : Int) + ((0 : Int) - 1).fdiv 256) = -1 := by decide
  have e2 : ((0 : Int) - 1).emod 256 = 255 := by decide
  have e3 : fmt08X (-1) = '-' :: fmtFixed 7 1 := by decide
  have e4 : fmt08X (255 : Int) = fmtFixed 8 255 := by
    have : ((255 : Int)) = ((255 : Nat) : Int) := by norm_num
    rw [this, fmt08X_eq_fmtFixed (by norm_num)]
  rw [e1, e2, e3, e4]

lemma get_next_wal_after_zero {t : List Char} (ht : t.length = 8) :
    get_next_wal (t ++ ('-' :: fmtFixed 7 1) ++ fmtFixed 8 255)
      = some (mkWal t 0 0) := by
  have hlen : ('-' :: fmtFixed 7 1).length = 8 := by
    rw [List.length_cons, fmtFixed_length]
  rw [get_next_wal, slice_last8 ht hlen (fmtFixed_length 8 255),
      slice_mid8 _ ht hlen, slice_first8' ht,
      parseHexInt_fmtFixed (by norm_num) (by norm_num : (255 : Nat) < 16 ^ 8)]
  have ep : parseHexInt ('-' :: fmtFixed 7 1) = some (-1) := by decide
  rw [ep]
  show some (t ++ fmt08X ((-1 : Int) + ((255 : Int) + 1).fdiv 256)
      ++ fmt08X (((255 : Int) + 1).emod 256)) = _
  have e1 : ((-1 : Int) + ((255 : Int) + 1).fdiv 256) = 0 := by decide
  have e2 : (((255 : Int) + 1).emod 256) = 0 := by decide
  have e0 : ((0 : Int)) = ((0 : Nat) : Int) := by norm_num
  rw [e1, e2, e0, fmt08X_eq_fmtFixed (by norm_num)]
  rfl

lemma is_before_mkWal_same {t : List Char} (ht : t.length = 8)
    {h l h' l' : Nat} (hh : h < 16 ^ 8) (hl : l < 16 ^ 8)
    (hh' : h' < 16 ^ 8) (hl' : l' < 16 ^ 8) :
    is_before (mkWal t h l) (mkWal t h' l')
      = some (decide (256 * h + l < 256 * h' + l')) := by
  rw [is_before, if_neg (by rw [mkWal_timeline ht, mkWal_timeline ht]; simp),
      mkWal_low ht, mkWal_high ht, mkWal_low ht, mkWal_high ht,
      parseHexInt_fmtFixed (by norm_num) hh, parseHexInt_fmtFixed (by norm_num) hl,
      parseHexInt_fmtFixed (by norm_num) hh', parseHexInt_fmtFixed (by norm_num) hl']
  show some (decide ((h : Int) * 256 + l < (h' : Int) * 256 + l')) = _
  have key : ((h : Int) * 256 + l < (h' : Int) * 256 + l')
      ↔ (256 * h + l < 256 * h' + l') := by omega
  rw [decide_eq_decide.mpr key]

lemma is_before_diff_timeline {a b : Wal} (hne : slice a 0 8 ≠ slice b 0 8) :
    is_before a b = some false := by
  rw [is_before, if_pos hne]
  rfl

/-! ## `pyMax` / `pyMin` specifications -/

lemma pyMax_fold_spec (xs : List Wal) :
    ∀ acc, (xs.foldl (fun m y => if strLt m y then y else m) acc = acc ∨
        xs.foldl (fun m y => if strLt m y then y else m) acc ∈ xs) ∧
      strLt (xs.foldl (fun m y => if strLt m y then y else m) acc) acc = false ∧
      ∀ y ∈ xs, strLt (xs.foldl (fun m y => if strLt m y then y else m) acc) y = false := by
  induction xs with
  | nil =>
    intro acc
    exact ⟨Or.inl rfl, strLt_irrefl acc, by simp⟩
  | cons x xs ih =>
    intro acc
    simp only [List.foldl_cons]
    by_cases hx : strLt acc x
    · rw [if_pos hx]
      obtain ⟨hmem, hacc, hall⟩ := ih x
      refine ⟨?_, ?_, ?_⟩
      · rcases hmem with hmem | hmem
        · exact Or.inr (by simp [hmem])
        · exact Or.inr (by simp [hmem])
      · cases hfa : strLt (List.foldl (fun m y => if strLt m y then y else m) x xs) acc
        · rfl
        · exfalso
          have hcon := strLt_trans hfa hx
          rw [hacc] at hcon
          exact Bool.false_ne_true hcon
      · intro y hy
        rcases List.mem_cons.mp hy with rfl | hy
        · exact hacc
        · exact hall y hy
    · rw [if_neg hx]
      have hxf : strLt acc x = false := by
        revert hx
        cases strLt acc x <;> simp
      obtain ⟨hmem, hacc, hall⟩ := ih acc
      refine ⟨?_, hacc, ?_⟩
      · rcases hmem with hmem | hmem
        · exact Or.inl hmem
        · exact Or.inr (by simp [hmem])
      · intro y hy
        rcases List.mem_cons.mp hy with rfl | hy
        · cases hfy : strLt (List.foldl (fun m y => if strLt m y then y else m) acc xs) y
          · rfl
          · exfalso
            rcases strLt_trichotomy acc y with hc | hc | hc
            · rw [hxf] at hc
              exact Bool.false_ne_true hc
            · subst hc
              rw [hacc] at hfy
              exact Bool.false_ne_true hfy
            · have hcon := strLt_trans hfy hc
              rw [hacc] at hcon
              exact Bool.false_ne_true hcon
        · exact hall y hy

lemma pyMax_spec {l : List Wal} {m : Wal} (h : pyMax l = some m) :
    m ∈ l ∧ ∀ y ∈ l, strLt m y = false := by
  cases l with
  | nil => simp [pyMax] at h
  | cons x xs =>
    rw [pyMax, Option.some.injEq] at h
    obtain ⟨hmem, hacc, hall⟩ := pyMax_fold_spec xs x
    subst h
    constructor
    · rcases hmem with hmem | hmem
      · rw [hmem]
        exact List.mem_cons_self x xs
      · exact List.mem_cons_of_mem x hmem
    · intro y hy
      rcases List.mem_cons.mp hy with rfl | hy
      · exact hacc
      · exact hall y hy

lemma pyMin_isSome {l : List Wal} (h : l ≠ []) : ∃ m, pyMin l = some m := by
  cases l with
  | nil => exact absurd rfl h
  | cons x xs => exact ⟨_, rfl⟩

lemma pyMax_isSome {l : List Wal} (h : l ≠ []) : ∃ m, pyMax l = some m := by
  cases l with
  | nil => exact absurd rfl h
  | cons x xs => exact ⟨_, rfl⟩

/-! ## Python set / sort lemmas -/

lemma mem_setAdd {s : List Wal} {v w : Wal} : w ∈ setAdd s v ↔ w ∈ s ∨ w = v := by
  rw [setAdd]
  split
  · next hv =>
    constructor
    · exact Or.inl
    · rintro (hw | rfl)
      · exact hw
      · exact hv
  · next hv => simp [List.mem_append]

lemma setAdd_nodup {s : List Wal} {v : Wal} (h : s.Nodup) : (setAdd s v).Nodup := by
  rw [setAdd]
  split
  · exact h
  · next hv => simpa [List.nodup_append] using ⟨h, hv⟩

lemma setAdd_of_mem {s : List Wal} {v : Wal} (h : v ∈ s) : setAdd s v = s := by
  rw [setAdd, if_pos h]

lemma insertSorted_mem {w y : Wal} :
    ∀ {l : List Wal}, y ∈ insertSorted w l ↔ y = w ∨ y ∈ l := by
  intro l
  induction l with
  | nil => simp [insertSorted]
  | cons x xs ih =>
    rw [insertSorted]
    split
    · simp only [List.mem_cons, ih]
      tauto
    · simp only [List.mem_cons]

lemma insertSorted_pairwise {w : Wal} :
    ∀ {l : List Wal}, l.Pairwise (fun a b => strLt b a = false) →
      (insertSorted w l).Pairwise (fun a b => strLt b a = false) := by
  intro l
  induction l with
  | nil =>
    intro _
    simp [insertSorted]
  | cons x xs ih =>
    intro h
    rw [List.pairwise_cons] at h
    obtain ⟨hx, hxs⟩ := h
    rw [insertSorted]
    split
    · next hlt =>
      rw [List.pairwise_cons]
      refine ⟨?_, ih hxs⟩
      intro y hy
      rcases insertSorted_mem.mp hy with rfl | hy
      · exact strLt_asymm hlt
      · exact hx y hy
    · next hlt =>
      have hxw : strLt x w = false := by
        revert hlt
        cases strLt x w <;> simp
      rw [List.pairwise_cons]
      constructor
      · intro y hy
        rcases List.mem_cons.mp hy with rfl | hy
        · exact hxw
        · have hyx : strLt y x = false := hx y hy
          cases hyw : strLt y w
          · rfl
          · exfalso
            rcases strLt_trichotomy y x with hc | hc | hc
            · rw [hyx] at hc
              exact Bool.false_ne_true hc
            · subst hc
              rw [hxw] at hyw
              exact Bool.false_ne_true hyw
            · have := strLt_trans hc hyw
              rw [hxw] at this
              exact Bool.false_ne_true this
      · rw [List.pairwise_cons]
        exact ⟨hx, hxs⟩

lemma pySorted_mem {y : Wal} : ∀ {l : List Wal}, y ∈ pySorted l ↔ y ∈ l := by
  intro l
  induction l with
  | nil => simp [pySorted]
  | cons x xs ih =>
    show y ∈ insertSorted x (pySorted xs) ↔ _
    rw [insertSorted_mem, ih, List.mem_cons]

lemma pySorted_pairwise :
    ∀ (l : List Wal), (pySorted l).Pairwise (fun a b => strLt b a = false) := by
  intro l
  induction l with
  | nil => simp [pySorted]
  | cons x xs ih => exact insertSorted_pairwise ih

lemma dropWhile_head_false {p : Wal → Bool} :
    ∀ {l : List Wal} {y : Wal} {ys : List Wal},
      l.dropWhile p = y :: ys → p y = false := by
  intro l
  induction l with
  | nil => intro y ys h; simp [List.dropWhile] at h
  | cons x xs ih =>
    intro y ys h
    rw [List.dropWhile_cons] at h
    by_cases hpx : p x = true
    · rw [if_pos hpx] at h
      exact ih h
    · rw [if_neg hpx] at h
      rw [List.cons.injEq] at h
      rw [← h.1]
      revert hpx
      cases p x <;> simp

/-! ## Prune lemmas -/

lemma prune_loop_eq (remote : Wal → Bool) :
    ∀ (srt dones : List Wal) (removed : Nat),
      prune_loop remote srt dones removed
        = (List.foldl List.erase dones (srt.takeWhile (fun x => !remote x)),
           removed + (srt.takeWhile (fun x => !remote x)).length) := by
  intro srt
  induction srt with
  | nil => intro dones removed; rfl
  | cons x xs ih =>
    intro dones removed
    rw [prune_loop, List.takeWhile_cons]
    by_cases hr : remote x = true
    · rw [if_pos hr, if_neg (by simp [hr])]
      simp
    · rw [Bool.not_eq_true] at hr
      rw [if_neg (by simp [hr]), if_pos (by simp [hr]), ih, List.foldl_cons,
          List.length_cons]
      refine congrArg _ ?_
      omega

lemma foldl_erase_eq_filter :
    ∀ (u dones : List Wal), dones.Nodup →
      List.foldl List.erase dones u
        = dones.filter (fun x => !(decide (x ∈ u))) := by
  intro u
  induction u with
  | nil =>
    intro dones _
    simp
  | cons v vs ih =>
    intro dones hnd
    rw [List.foldl_cons, ih _ (hnd.erase v), hnd.erase_eq_filter v,
        List.filter_filter]
    apply List.filter_congr
    intro x _
    simp only [List.mem_cons, decide_not]
    cases hxv : decide (x = v) <;> cases hxvs : decide (x ∈ vs) <;>
      simp_all

lemma prune_eq_filter (remote : Wal → Bool) (dones : List Wal)
    (hnd : dones.Nodup) :
    (prune remote dones).1
      = dones.filter (fun x => dones.any (fun y => !strLt x y && remote y)) := by
  rw [prune, prune_loop_eq, foldl_erase_eq_filter _ _ hnd]
  apply List.filter_congr
  intro x hx
  have hsplit : (pySorted dones).takeWhile (fun x => !remote x)
      ++ (pySorted dones).dropWhile (fun x => !remote x) = pySorted dones :=
    List.takeWhile_append_dropWhile _ _
  have hpw := pySorted_pairwise dones
  cases hxu : decide (x ∈ (pySorted dones).takeWhile (fun x => !remote x))
  · -- x survives the sweep: some done segment at or below x is still remote
    have hxu' : x ∉ (pySorted dones).takeWhile (fun x => !remote x) :=
      of_decide_eq_false hxu
    have hxL : x ∈ pySorted dones := pySorted_mem.mpr hx
    rw [← hsplit, List.mem_append] at hxL
    rcases hxL with hxL | hxL
    · exact absurd hxL hxu'
    · obtain ⟨y0, ys, hv⟩ : ∃ y0 ys,
          (pySorted dones).dropWhile (fun x => !remote x) = y0 :: ys := by
        rcases hd : (pySorted dones).dropWhile (fun x => !remote x) with _ | ⟨y0, ys⟩
        · rw [hd] at hxL
          simp at hxL
        · exact ⟨y0, ys, rfl⟩
      have hry0 : remote y0 = true := by
        have := dropWhile_head_false hv
        revert this
        cases remote y0 <;> simp
      have hy0d : y0 ∈ dones := by
        rw [← pySorted_mem (l := dones), ← hsplit, List.mem_append]
        exact Or.inr (by rw [hv]; exact List.mem_cons_self _ _)
      have hxy0 : strLt x y0 = false := by
        rw [hv] at hxL
        rcases List.mem_cons.mp hxL with rfl | hxL
        · exact strLt_irrefl x
        · have hpv : ((pySorted dones).dropWhile
              (fun x => !remote x)).Pairwise (fun a b => strLt b a = false) := by
            rw [← hsplit] at hpw
            exact (List.pairwise_append.mp hpw).2.1
          rw [hv, List.pairwise_cons] at hpv
          exact hpv.1 x hxL
      have : dones.any (fun y => !strLt x y && remote y) = true := by
        rw [List.any_eq_true]
        exact ⟨y0, hy0d, by rw [hxy0, hry0]; rfl⟩
      rw [this]
      rfl
  · -- x is erased: every done segment at or below x is gone from remote
    have hxu' : x ∈ (pySorted dones).takeWhile (fun x => !remote x) :=
      of_decide_eq_true hxu
    have hrx : remote x = false := by
      have := List.mem_takeWhile_imp hxu'
      revert this
      cases remote x <;> simp
    have : dones.any (fun y => !strLt x y && remote y) = false := by
      rw [← Bool.not_eq_true, List.any_eq_true]
      rintro ⟨y, hyd, hy⟩
      have hxy : strLt x y = false := by
        revert hy
        cases strLt x y <;> cases remote y <;> simp
      have hry : remote y = true := by
        revert hy
        cases remote y <;> simp
      have hyL : y ∈ pySorted dones := pySorted_mem.mpr hyd
      rw [← hsplit, List.mem_append] at hyL
      rcases hyL with hyL | hyL
      · have := List.mem_takeWhile_imp hyL
        rw [hry] at this
        simp at this
      · -- y sorts after the take-while part that contains x
        have hcross : strLt y x = false := by
          rw [← hsplit] at hpw
          exact (List.pairwise_append.mp hpw).2.2 x hxu' y hyL
        have := strLt_conn hxy hcross
        subst this
        rw [hrx] at hry
        exact Bool.false_ne_true hry
    rw [this]
    rfl

/-! ## Canonical-walk lemmas for the extension loop -/

lemma walC_bound_high {n : Nat} (h : n < 2 ^ 40) : n / 256 < 16 ^ 8 := by
  have h168 : (16 : Nat) ^ 8 = 4294967296 := by norm_num
  have h240 : (2 : Nat) ^ 40 = 1099511627776 := by norm_num
  omega

lemma walC_low_lt {n : Nat} : n % 256 < 16 ^ 8 := by
  have h168 : (16 : Nat) ^ 8 = 4294967296 := by norm_num
  have := Nat.mod_lt n (y := 256) (by norm_num)
  omega

lemma strLt_mkWal {t : List Char} {h l h' l' : Nat}
    (hh : h < 16 ^ 8) (hh' : h' < 16 ^ 8) (hl : l < 256) (hl' : l' < 256) :
    strLt (mkWal t h l) (mkWal t h' l')
      = decide (256 * h + l < 256 * h' + l') := by
  rw [mkWal, mkWal, List.append_assoc, List.append_assoc, strLt_append_same,
      strLt_same_length_append _ _ (by rw [fmtFixed_length, fmtFixed_length]),
      strLt_fmtFixed hh hh',
      strLt_fmtFixed (lt_of_lt_of_le hl (by norm_num))
        (lt_of_lt_of_le hl' (by norm_num))]
  have heqd : decide (fmtFixed 8 h = fmtFixed 8 h') = decide (h = h') :=
    decide_eq_decide.mpr ⟨fun q => fmtFixed_inj hh hh' q, fun q => by rw [q]⟩
  rw [heqd]
  rcases Nat.lt_trichotomy h h' with hc | hc | hc
  · have b1 : decide (h < h') = true := decide_eq_true hc
    have b4 : decide (256 * h + l < 256 * h' + l') = true := decide_eq_true (by omega)
    rw [b1, b4]
    simp
  · have b1 : decide (h < h') = false := decide_eq_false (by omega)
    have b2 : decide (h = h') = true := decide_eq_true hc
    have b34 : decide (256 * h + l < 256 * h' + l') = decide (l < l') :=
      decide_eq_decide.mpr (by omega)
    rw [b1, b2, b34]
    simp
  · have b1 : decide (h < h') = false := decide_eq_false (by omega)
    have b2 : decide (h = h') = false := decide_eq_false (by omega)
    have b4 : decide (256 * h + l < 256 * h' + l') = false := decide_eq_false (by omega)
    rw [b1, b2, b4]
    simp

lemma walC_strLt (t : List Char) {m n : Nat} (hm : m < 2 ^ 40) (hn : n < 2 ^ 40) :
    strLt (walC t m) (walC t n) = decide (m < n) := by
  rw [walC, walC, strLt_mkWal (walC_bound_high hm) (walC_bound_high hn)
      (Nat.mod_lt _ (by norm_num)) (Nat.mod_lt _ (by norm_num))]
  have key : (256 * (m / 256) + m % 256 < 256 * (n / 256) + n % 256) ↔ m < n := by
    omega
  rw [decide_eq_decide.mpr key]

lemma walC_inj (t : List Char) (ht : t.length = 8) {m n : Nat}
    (hm : m < 2 ^ 40) (hn : n < 2 ^ 40) (heq : walC t m = walC t n) : m = n := by
  obtain ⟨-, e1, e2⟩ := mkWal_inj ht ht (walC_bound_high hm) walC_low_lt
    (walC_bound_high hn) walC_low_lt heq
  omega

lemma walC_next (t : List Char) (ht : t.length = 8) {n : Nat}
    (h1 : n + 1 < 2 ^ 40) :
    get_next_wal (walC t n) = some (walC t (n + 1)) := by
  have h168 : (16 : Nat) ^ 8 = 4294967296 := by norm_num
  have hov : n / 256 + (n % 256 + 1) / 256 < 16 ^ 8 := by omega
  rw [walC, get_next_wal_mkWal ht (walC_bound_high (by omega)) walC_low_lt hov]
  rw [walC]
  have e1 : n / 256 + (n % 256 + 1) / 256 = (n + 1) / 256 := by omega
  have e2 : (n % 256 + 1) % 256 = (n + 1) % 256 := by omega
  rw [e1, e2]

lemma walC_is_before (t : List Char) (ht : t.length = 8) {m n : Nat}
    (hm : m < 2 ^ 40) (hn : n < 2 ^ 40) :
    is_before (walC t m) (walC t n) = some (decide (m < n)) := by
  rw [walC, walC, is_before_mkWal_same ht (walC_bound_high hm) walC_low_lt
      (walC_bound_high hn) walC_low_lt]
  have key : (256 * (m / 256) + m % 256 < 256 * (n / 256) + n % 256) ↔ m < n := by
    omega
  rw [decide_eq_decide.mpr key]

lemma combinedZ_walC (t : List Char) (ht : t.length = 8) {n : Nat}
    (hn : n < 2 ^ 40) : combinedZ (walC t n) = some ((n : Int)) := by
  rw [combinedZ, walC, mkWal_high ht, mkWal_low ht,
      parseHexInt_fmtFixed (by norm_num) (walC_bound_high hn),
      parseHexInt_fmtFixed (by norm_num) walC_low_lt]
  show some (((n / 256 : Nat) : Int) * 256 + ((n % 256 : Nat) : Int))
      = some ((n : Int))
  congr 1
  omega

lemma extend_loop_stop {remote : Wal → Bool} {ne : Bool} {target : Wal}
    {fuel : Nat} {cur : Wal} {dones : List Wal} {added : Nat}
    (hb : is_before cur target = some false) :
    extend_loop remote ne target fuel cur dones added = some (dones, added) := by
  cases fuel <;> simp [extend_loop, hb]

lemma extend_loop_step {remote : Wal → Bool} {ne : Bool} {target : Wal}
    {k : Nat} {cur nxt : Wal} {dones : List Wal} {added : Nat}
    (hb : is_before cur target = some true) (hn : get_next_wal cur = some nxt) :
    extend_loop remote ne target (k + 1) cur dones added
      = if !ne || remote nxt then
          extend_loop remote ne target k nxt (setAdd dones nxt) (added + 1)
        else extend_loop remote ne target k nxt dones added := by
  have h1 : extend_loop remote ne target (k + 1) cur dones added
      = (is_before cur target).bind (fun b =>
          if b then
            (get_next_wal cur).bind (fun nxt =>
              if !ne || remote nxt then
                extend_loop remote ne target k nxt (setAdd dones nxt) (added + 1)
              else extend_loop remote ne target k nxt dones added)
          else some (dones, added)) := rfl
  rw [h1, hb]
  show ((get_next_wal cur).bind fun nxt =>
      if !ne || remote nxt then
        extend_loop remote ne target k nxt (setAdd dones nxt) (added + 1)
      else extend_loop remote ne target k nxt dones added) = _
  rw [hn]
  rfl

lemma extend_loop_fold (remote : Wal → Bool) (ne : Bool) (t : List Char)
    (ht : t.length = 8) (ct : Nat) (hct : ct < 2 ^ 40) :
    ∀ (k c : Nat) (dones : List Wal) (added : Nat), c + k = ct →
      extend_loop remote ne (walC t ct) k (walC t c) dones added
        = some ((List.range' (c + 1) k).foldl
            (fun ds n => if !ne || remote (walC t n) then setAdd ds (walC t n) else ds)
            dones,
          added + ((List.range' (c + 1) k).filter
            (fun n => !ne || remote (walC t n))).length) := by
  intro k
  induction k with
  | zero =>
    intro c dones added hc
    have hb : is_before (walC t c) (walC t ct) = some false := by
      rw [walC_is_before t ht (by omega) hct]
      rw [decide_eq_false (by omega : ¬ c < ct)]
    rw [extend_loop_stop hb]
    simp
  | succ k ih =>
    intro c dones added hc
    have hb : is_before (walC t c) (walC t ct) = some true := by
      rw [walC_is_before t ht (by omega) hct]
      rw [decide_eq_true (by omega : c < ct)]
    have hn : get_next_wal (walC t c) = some (walC t (c + 1)) :=
      walC_next t ht (by omega)
    rw [extend_loop_step hb hn]
    have hrange : List.range' (c + 1) (k + 1) = (c + 1) :: List.range' (c + 2) k := by
      rw [List.range'_succ]
    by_cases hcond : (!ne || remote (walC t (c + 1))) = true
    · rw [if_pos hcond, ih (c + 1) _ _ (by omega),
          show c + 1 + 1 = c + 2 from rfl, hrange, List.foldl_cons, List.filter_cons]
      simp only [if_pos hcond, List.length_cons]
      refine congrArg _ ?_
      refine congrArg _ ?_
      omega
    · rw [if_neg hcond, ih (c + 1) _ _ (by omega),
          show c + 1 + 1 = c + 2 from rfl, hrange, List.foldl_cons, List.filter_cons]
      simp only [if_neg hcond]

lemma mem_fold_setAdd (f : Nat → Wal) (cond : Nat → Bool) :
    ∀ (R : List Nat) (dones : List Wal) (w : Wal),
      w ∈ R.foldl (fun ds n => if cond n then setAdd ds (f n) else ds) dones
        ↔ w ∈ dones ∨ ∃ n ∈ R, cond n = true ∧ w = f n := by
  intro R
  induction R with
  | nil => simp
  | cons r rs ih =>
    intro dones w
    rw [List.foldl_cons]
    by_cases hc : cond r = true
    · rw [if_pos hc, ih]
      constructor
      · rintro (hw | ⟨n, hn, hcn, rfl⟩)
        · rcases mem_setAdd.mp hw with hw | rfl
          · exact Or.inl hw
          · exact Or.inr ⟨r, by simp, hc, rfl⟩
        · exact Or.inr ⟨n, by simp [hn], hcn, rfl⟩
      · rintro (hw | ⟨n, hn, hcn, rfl⟩)
        · exact Or.inl (mem_setAdd.mpr (Or.inl hw))
        · rcases List.mem_cons.mp hn with rfl | hn
          · exact Or.inl (mem_setAdd.mpr (Or.inr rfl))
          · exact Or.inr ⟨n, hn, hcn, rfl⟩
    · rw [if_neg hc, ih]
      constructor
      · rintro (hw | ⟨n, hn, hcn, rfl⟩)
        · exact Or.inl hw
        · exact Or.inr ⟨n, by simp [hn], hcn, rfl⟩
      · rintro (hw | ⟨n, hn, hcn, rfl⟩)
        · exact Or.inl hw
        · rcases List.mem_cons.mp hn with rfl | hn
          · exact absurd hcn hc
          · exact Or.inr ⟨n, hn, hcn, rfl⟩

lemma fold_setAdd_no_change (f : Nat → Wal) (cond : Nat → Bool) :
    ∀ (R : List Nat) (dones : List Wal),
      (∀ n ∈ R, cond n = true → f n ∈ dones) →
      R.foldl (fun ds n => if cond n then setAdd ds (f n) else ds) dones = dones := by
  intro R
  induction R with
  | nil => intro dones _; rfl
  | cons r rs ih =>
    intro dones hall
    rw [List.foldl_cons]
    by_cases hc : cond r = true
    · rw [if_pos hc, setAdd_of_mem (hall r (by simp) hc)]
      exact ih dones (fun n hn h => hall n (by simp [hn]) h)
    · rw [if_neg hc]
      exact ih dones (fun n hn h => hall n (by simp [hn]) h)

lemma extend_from_pos_eq (remote : Wal → Bool) (ast : ArchiverStatus)
    (dones : List Wal) (t : List Char) (ht : t.length = 8) {c0 ct : Nat}
    (hc0 : c0 < 2 ^ 40) (hct : ct < 2 ^ 40)
    (htgt : ast.last_archived_wal = walC t ct) (ne e : Bool)
    (hpos : ast.archived_count > 0) :
    extend_from remote ast dones (walC t c0) ne e
      = some ((List.range' (c0 + 1) (ct - c0)).foldl
          (fun ds n => if !ne || remote (walC t n) then setAdd ds (walC t n) else ds)
          dones,
        ((List.range' (c0 + 1) (ct - c0)).filter
          (fun n => !ne || remote (walC t n))).length, e) := by
  rw [extend_from, if_pos hpos, htgt, combinedZ_walC t ht hc0, combinedZ_walC t ht hct]
  show (extend_loop remote ne (walC t ct) (((ct : Int)) - ((c0 : Int))).toNat
      (walC t c0) dones 0).bind _ = _
  rcases Nat.le_total c0 ct with hle | hle
  · have hfuel : (((ct : Int)) - ((c0 : Int))).toNat = ct - c0 := by omega
    rw [hfuel, extend_loop_fold remote ne t ht ct hct (ct - c0) c0 dones 0 (by omega)]
    simp
  · have hb : is_before (walC t c0) (walC t ct) = some false := by
      rw [walC_is_before t ht hc0 hct]
      rw [decide_eq_false (by omega : ¬ c0 < ct)]
    rw [extend_loop_stop hb]
    have hr : List.range' (c0 + 1) (ct - c0) = [] := by
      have : ct - c0 = 0 := by omega
      rw [this]
      rfl
    rw [hr]
    rfl

lemma xlog_done_extend_eq_none {remote : Wal → Bool} {ast : ArchiverStatus}
    {dones : List Wal} {m : Wal} (hmax : pyMax dones = some m)
    (hf : ast.last_failed_wal = none) :
    xlog_done_extend remote ast dones = extend_from remote ast dones m false false := by
  rw [xlog_done_extend, hmax, hf]
  rfl

lemma xlog_done_extend_eq_some {remote : Wal → Bool} {ast : ArchiverStatus}
    {dones : List Wal} {m mn f : Wal} (hmax : pyMax dones = some m)
    (hmin : pyMin dones = some mn) (hf : ast.last_failed_wal = some f) :
    xlog_done_extend remote ast dones
      = extend_from remote ast dones m (strLt f m) (strLt mn f || strLt f m) := by
  rw [xlog_done_extend, hmax, hf, hmin]
  rfl

lemma extend_from_idem (remote : Wal → Bool) (ast : ArchiverStatus) (t : List Char)
    (ht : t.length = 8) {c0 ct : Nat} (hc0 : c0 < 2 ^ 40) (hct : ct < 2 ^ 40)
    (dones d1 : List Wal) (a1 : Nat) (ne1 ein eout : Bool)
    (htgt : ast.last_archived_wal = walC t ct)
    (hcanon : ∀ w ∈ dones, ∃ n, n < 2 ^ 40 ∧ w = walC t n)
    (hmem0 : walC t c0 ∈ dones)
    (hrun1 : extend_from remote ast dones (walC t c0) ne1 ein = some (d1, a1, eout)) :
    (∀ w ∈ d1, ∃ n, n < 2 ^ 40 ∧ w = walC t n) ∧
    (∀ w ∈ dones, w ∈ d1) ∧ d1 ≠ [] ∧
    ∀ (c1 : Nat) (ne2 e2 : Bool), c1 < 2 ^ 40 →
      walC t c1 ∈ d1 → (∀ y ∈ d1, strLt (walC t c1) y = false) →
      (ne1 = true → ne2 = true) →
      ∃ a2, extend_from remote ast d1 (walC t c1) ne2 e2 = some (d1, a2, e2) := by
  by_cases hpos : ast.archived_count > 0
  · rw [extend_from_pos_eq remote ast dones t ht hc0 hct htgt ne1 ein hpos] at hrun1
    simp only [Option.some.injEq, Prod.mk.injEq] at hrun1
    obtain ⟨hd1, -, -⟩ := hrun1
    have hmemd : ∀ w, w ∈ d1
        ↔ w ∈ dones ∨ ∃ n ∈ List.range' (c0 + 1) (ct - c0),
            (!ne1 || remote (walC t n)) = true ∧ w = walC t n := by
      intro w
      rw [← hd1]
      exact mem_fold_setAdd _ _ _ dones w
    have hsub : ∀ w ∈ dones, w ∈ d1 := fun w hw => (hmemd w).mpr (Or.inl hw)
    refine ⟨?_, hsub, List.ne_nil_of_mem (hsub _ hmem0), ?_⟩
    · intro w hw
      rcases (hmemd w).mp hw with hw | ⟨n, hn, -, rfl⟩
      · exact hcanon w hw
      · rw [List.mem_range'_1] at hn
        exact ⟨n, by omega, rfl⟩
    · intro c1 ne2 e2 hc1 hmem1 hub1 hne12
      have hc0c1 : c0 ≤ c1 := by
        have hs := hub1 _ (hsub _ hmem0)
        rw [walC_strLt t hc1 hc0] at hs
        have := of_decide_eq_false hs
        omega
      rw [extend_from_pos_eq remote ast d1 t ht hc1 hct htgt ne2 e2 hpos]
      have hno : (List.range' (c1 + 1) (ct - c1)).foldl
          (fun ds n => if !ne2 || remote (walC t n) then setAdd ds (walC t n) else ds)
          d1 = d1 := by
        apply fold_setAdd_no_change
        intro n hn hcond2
        rw [List.mem_range'_1] at hn
        cases hne1 : ne1 with
        | false =>
          exfalso
          have hctc1 : ct ≤ c1 := by
            rcases Nat.lt_or_ge c0 ct with hlt | hge
            · have hctmem : walC t ct ∈ d1 := by
                refine (hmemd _).mpr (Or.inr ⟨ct, ?_, ?_, rfl⟩)
                · rw [List.mem_range'_1]
                  omega
                · rw [hne1]
                  rfl
              have hs := hub1 _ hctmem
              rw [walC_strLt t hc1 hct] at hs
              have := of_decide_eq_false hs
              omega
            · omega
          omega
        | true =>
          have hne2 : ne2 = true := hne12 hne1
          have hrem : remote (walC t n) = true := by
            rw [hne2] at hcond2
            simpa using hcond2
          refine (hmemd _).mpr (Or.inr ⟨n, ?_, ?_, rfl⟩)
          · rw [List.mem_range'_1]
            omega
          · rw [hrem]
            simp
      rw [hno]
      exact ⟨_, rfl⟩
  · rw [extend_from, if_neg hpos] at hrun1
    simp only [pure, Option.some.injEq, Prod.mk.injEq] at hrun1
    obtain ⟨hd1, -, -⟩ := hrun1
    subst hd1
    refine ⟨hcanon, fun w hw => hw, List.ne_nil_of_mem hmem0, ?_⟩
    intro c1 ne2 e2 _ _ _ _
    refine ⟨0, ?_⟩
    rw [extend_from, if_neg hpos]
    rfl

/-! ## Claim theorems -/

/-- C1: the published exception status is not the sum of distinct
power-of-two weights of the set flags.  The source lambda parses as an
if/elif chain over the weights 2, 3, 5 (Python conditional-expression
precedence): the archive-scan flag alone publishes 3 (not a power of
two), archive-scan plus remote also publishes 3 (no summing), and all
three flags publish 2; no assignment of power-of-two weights can
reproduce these values, though the all-clear value is 0 as claimed. -/
theorem c1_exception_status_not_bit_sum :
    exception_value false false false = 0 ∧
    exception_value false true false = 3 ∧
    exception_value false true true = 3 ∧
    exception_value true true true = 2 ∧
    ¬ ∃ w1 w2 w3 : Nat, (∃ i, w1 = 2 ^ i) ∧ (∃ j, w2 = 2 ^ j) ∧ (∃ k, w3 = 2 ^ k) ∧
      ∀ b x r : Bool, exception_value b x r
        = (if b then w1 else 0) + (if x then w2 else 0) + (if r then w3 else 0) := by
  refine ⟨rfl, rfl, rfl, rfl, ?_⟩
  rintro ⟨w1, w2, w3, ⟨i, rfl⟩, ⟨j, rfl⟩, ⟨k, rfl⟩, hall⟩
  have h2 := hall false true false
  simp [exception_value] at h2
  rcases Nat.lt_or_ge j 2 with hj | hj
  · interval_cases j <;> simp at h2
  · have hge : 2 ^ 2 ≤ 2 ^ j := Nat.pow_le_pow_right (by norm_num) hj
    omega

/-- C2: with an empty backup list and an empty done-segment set,
`compute_complex_metrics` does not complete: line 381 evaluates
`max(self.xlogs_done)` unconditionally, which raises `ValueError` on an
empty set (embedded as `none`) instead of skipping the master-position
walk. -/
theorem c2_empty_state_raises :
    compute_complex_metrics (mkState [] []) = none := by decide

/-- C3 counterexample: on backups at segments 100 and 103 with done set
`{100, 103}`, the final `valid_basebackup_count` is not 1: the
increment for B2 happens before the gap walk, so the mid-walk reset
leaves the counter at 0 and nothing increments it afterwards. -/
theorem c3_valid_chain_not_one :
    (compute_complex_metrics stGap).map (fun st => st.valid_basebackup_count_g)
      ≠ some 1 := by decide

/-- C3 (amended): on backups at segments 100 and 103 with done set
`{100, 103}`, the computation publishes `missingSegments = 2`,
`continuousRun = 0` and `validBackupChainCount = 0` (not 1: B2's
increment precedes the walk that resets the chain). -/
theorem c3_gap_metrics :
    (compute_complex_metrics stGap).map
      (fun st => (st.xlog_missing_g, st.continious_wal_g, st.valid_basebackup_count_g))
      = some (2, 0, 0) := by decide

/-- C4: with `last_failed_wal = segEx 17`, which is *not older* than the
current maximum `segEx 16` of the done set, and a remote oracle that
reports every segment absent, the stepped segment `segEx 17` is still
added unconditionally (`xlog_added = 1`): the code verifies remote
presence only when `last_failed_wal` sorts *before* the maximum
(`new_error = last_failed_wal < last_xlog`), the opposite of the
claimed (and commented) intent. -/
theorem c4_extend_skips_verification :
    xlog_done_extend (fun _ => false) astNewFail [segEx 16]
      = some ([segEx 16, segEx 17], 1, true) := by decide

/-- C5 counterexample: when the archiver-status query raises and the
cache is stale, `last_archive_status` propagates the failure to its
caller and leaves the `xlog_exception` flag untouched — the claimed
catch-and-flag behavior does not exist in the code. -/
theorem c5_failure_escapes :
    (last_archive_status (Except.error ()) 100 cacheEx).2 = Except.error () ∧
    (last_archive_status (Except.error ()) 100 cacheEx).1.xlog_exception = false := by
  constructor <;> rfl

/-- C5 (amended): when the archiver-status query or its connection
fails while the cache is stale, `last_archive_status` retains the
previous good snapshot and check timestamp unchanged and sets no flag,
but the failure propagates out of the function to the gauge-callback
caller instead of being converted into a flag. -/
theorem c5_failure_propagates (st : StatusCache) (now : Int)
    (hstale : st.last_archive_check = none ∨
      ∃ c, st.last_archive_check = some c ∧ now - c > 1) :
    last_archive_status (Except.error ()) now st = (st, Except.error ()) := by
  rw [last_archive_status, if_pos hstale]

/-- C5 witness: the amended theorem at the concrete stale cache. -/
theorem c5_failure_propagates_witness :
    last_archive_status (Except.error ()) 100 cacheEx = (cacheEx, Except.error ()) :=
  c5_failure_propagates cacheEx 100 (Or.inr ⟨0, rfl, by norm_num⟩)

/-- C6 counterexample: `"000000000000000000000100"` is a valid
24-hex-character identifier (its low field is `0x100`), but
`next(previous(a))` normalizes the low field into the high field and
returns `"000000000000000100000000" ≠ a`. -/
theorem c6_roundtrip_fails_denormalized :
    validWal walDenorm = true ∧
    Option.bind (get_previous_wal walDenorm) get_next_wal ≠ some walDenorm := by
  decide

/-- C6 (amended): for every valid identifier in canonical form (low
field `< 0x100`), `next(previous(a)) = a`; and `previous(next(a)) = a`
additionally requires `(high, low) ≠ (FFFFFFFF, FF)` (otherwise the
incremented high field formats to nine characters and the round trip
fails). -/
theorem c6_roundtrip_canonical (w : Wal) (hv : validWal w = true)
    (hlow : valHex (slice w 16 24) < 256) :
    Option.bind (get_previous_wal w) get_next_wal = some w ∧
    (¬(valHex (slice w 8 16) = 16 ^ 8 - 1 ∧ valHex (slice w 16 24) = 255) →
      Option.bind (get_next_wal w) get_previous_wal = some w) := by
  obtain ⟨hw, ht8, htc, hH, hL⟩ := valid_decomp hv
  constructor
  · rcases Nat.eq_zero_or_pos (valHex (slice w 16 24)) with hL0 | hLpos
    · rcases Nat.eq_zero_or_pos (valHex (slice w 8 16)) with hH0 | hHpos
      · rw [hw, hL0, hH0, get_previous_wal_mkWal_zero ht8]
        show get_next_wal _ = _
        rw [get_next_wal_after_zero ht8]
      · rw [hw, hL0, get_previous_wal_mkWal_borrow ht8 hH hHpos]
        show get_next_wal _ = _
        rw [get_next_wal_mkWal ht8 (by omega) (by norm_num)
            (by omega : valHex (slice w 8 16) - 1 + (255 + 1) / 256 < 16 ^ 8)]
        have e1 : valHex (slice w 8 16) - 1 + (255 + 1) / 256
            = valHex (slice w 8 16) := by omega
        have e2 : (255 + 1) % 256 = 0 := by norm_num
        rw [e1, e2]
    · rw [hw, get_previous_wal_mkWal_pos ht8 hH hL hLpos (by omega)]
      have e1 : valHex (slice w 8 16) + (valHex (slice w 16 24) - 1) / 256
          = valHex (slice w 8 16) := by omega
      have e2 : (valHex (slice w 16 24) - 1) % 256
          = valHex (slice w 16 24) - 1 := by omega
      rw [e1, e2]
      show get_next_wal _ = _
      rw [get_next_wal_mkWal ht8 hH (by omega) (by omega)]
      have e3 : valHex (slice w 16 24) - 1 + 1 = valHex (slice w 16 24) := by omega
      rw [e3]
      have e4 : valHex (slice w 8 16) + valHex (slice w 16 24) / 256
          = valHex (slice w 8 16) := by omega
      have e5 : valHex (slice w 16 24) % 256 = valHex (slice w 16 24) := by omega
      rw [e4, e5]
  · intro hne
    rcases Nat.lt_or_ge (valHex (slice w 16 24)) 255 with hL254 | hL255
    · rw [hw, get_next_wal_mkWal ht8 hH hL (by omega)]
      have e1 : valHex (slice w 8 16) + (valHex (slice w 16 24) + 1) / 256
          = valHex (slice w 8 16) := by omega
      have e2 : (valHex (slice w 16 24) + 1) % 256
          = valHex (slice w 16 24) + 1 := by omega
      rw [e1, e2]
      show get_previous_wal _ = _
      rw [get_previous_wal_mkWal_pos ht8 hH (by omega) (by omega) (by omega)]
      have e3 : valHex (slice w 8 16) + (valHex (slice w 16 24) + 1 - 1) / 256
          = valHex (slice w 8 16) := by omega
      have e4 : (valHex (slice w 16 24) + 1 - 1) % 256
          = valHex (slice w 16 24) := by omega
      rw [e3, e4]
    · have hLeq : valHex (slice w 16 24) = 255 := by omega
      have hHne : valHex (slice w 8 16) ≠ 16 ^ 8 - 1 := fun hcon =>
        hne ⟨hcon, hLeq⟩
      rw [hw, hLeq, get_next_wal_mkWal ht8 hH (by norm_num) (by omega)]
      have e1 : (255 + 1) % 256 = 0 := by norm_num
      have e2 : valHex (slice w 8 16) + (255 + 1) / 256
          = valHex (slice w 8 16) + 1 := by omega
      rw [e1, e2]
      show get_previous_wal _ = _
      rw [get_previous_wal_mkWal_borrow ht8 (by omega) (by omega)]
      have e3 : valHex (slice w 8 16) + 1 - 1 = valHex (slice w 8 16) := by omega
      rw [e3]

/-- C6 witness: the amended round trip at the canonical identifier with
`segment_low = 5`. -/
theorem c6_roundtrip_canonical_witness :
    Option.bind (get_previous_wal (segEx 5)) get_next_wal = some (segEx 5) ∧
    Option.bind (get_next_wal (segEx 5)) get_previous_wal = some (segEx 5) := by
  have h := c6_roundtrip_canonical (segEx 5) (by decide) (by decide)
  exact ⟨h.1, h.2 (by decide)⟩

/-- C7 counterexample: at the valid identifier with
`segment_high = FFFFFFFF` and `segment_low = FF`, `next` produces a
25-character string (the high field formats to nine characters), and
`isBefore(a, next(a))` returns `false`, refuting "for every identifier
`a`, `isBefore(a, next(a))` is true". -/
theorem c7_top_not_before_next :
    validWal walTop = true ∧
    Option.bind (get_next_wal walTop) (fun n => is_before walTop n)
      = some false := by
  decide

/-- C7 (amended): on valid identifiers, `isBefore(a, b)` is exactly
"equal timeline fields and combined `(segment_high, segment_low)` of
`a` strictly below that of `b`" (false, not an error, on differing
timelines); `isBefore(a, next(a))` holds for canonical `a` except at
`(high, low) = (FFFFFFFF, FF)` where the high-field overflow breaks it;
and `isBefore(a, a)` is always false. -/
theorem c7_is_before_characterization :
    (∀ a b : Wal, validWal a = true → validWal b = true →
      is_before a b = some (decide (slice a 0 8 = slice b 0 8 ∧
        256 * valHex (slice a 8 16) + valHex (slice a 16 24)
          < 256 * valHex (slice b 8 16) + valHex (slice b 16 24)))) ∧
    (∀ a : Wal, validWal a = true → valHex (slice a 16 24) < 256 →
      ¬(valHex (slice a 8 16) = 16 ^ 8 - 1 ∧ valHex (slice a 16 24) = 255) →
      Option.bind (get_next_wal a) (fun n => is_before a n) = some true) ∧
    (∀ a : Wal, validWal a = true → is_before a a = some false) := by
  refine ⟨?_, ?_, ?_⟩
  · intro a b hva hvb
    obtain ⟨hwa, hta8, _, hHa, hLa⟩ := valid_decomp hva
    obtain ⟨hwb, htb8, _, hHb, hLb⟩ := valid_decomp hvb
    by_cases heq : slice a 0 8 = slice b 0 8
    · conv_lhs => rw [hwa, hwb, heq]
      rw [is_before_mkWal_same htb8 hHa hLa hHb hLb]
      have d : decide (256 * valHex (slice a 8 16) + valHex (slice a 16 24)
            < 256 * valHex (slice b 8 16) + valHex (slice b 16 24))
          = decide (slice a 0 8 = slice b 0 8 ∧
            256 * valHex (slice a 8 16) + valHex (slice a 16 24)
              < 256 * valHex (slice b 8 16) + valHex (slice b 16 24)) :=
        decide_eq_decide.mpr ⟨fun hq => ⟨heq, hq⟩, fun hq => hq.2⟩
      rw [d]
    · rw [is_before_diff_timeline heq]
      have d : decide (slice a 0 8 = slice b 0 8 ∧
            256 * valHex (slice a 8 16) + valHex (slice a 16 24)
              < 256 * valHex (slice b 8 16) + valHex (slice b 16 24)) = false :=
        decide_eq_false (fun hcon => heq hcon.1)
      rw [d]
  · intro a hva hlow hne
    obtain ⟨hwa, hta8, _, hHa, hLa⟩ := valid_decomp hva
    rw [hwa, get_next_wal_mkWal hta8 hHa hLa (by omega)]
    show is_before _ _ = _
    rw [is_before_mkWal_same hta8 hHa hLa (by omega)
        (lt_of_lt_of_le (Nat.mod_lt _ (by norm_num)) (by norm_num))]
    have d : decide (256 * valHex (slice a 8 16) + valHex (slice a 16 24)
          < 256 * (valHex (slice a 8 16) + (valHex (slice a 16 24) + 1) / 256)
            + (valHex (slice a 16 24) + 1) % 256) = true :=
      decide_eq_true (by omega)
    rw [d]
  · intro a hva
    obtain ⟨hwa, hta8, _, hHa, hLa⟩ := valid_decomp hva
    rw [hwa, is_before_mkWal_same hta8 hHa hLa hHa hLa]
    have d : decide (256 * valHex (slice a 8 16) + valHex (slice a 16 24)
          < 256 * valHex (slice a 8 16) + valHex (slice a 16 24)) = false :=
      decide_eq_false (by omega)
    rw [d]

/-- C7 witness: the characterization applied at concrete canonical
identifiers. -/
theorem c7_is_before_characterization_witness :
    is_before (segEx 3) (segEx 5) = some (decide (slice (segEx 3) 0 8
        = slice (segEx 5) 0 8 ∧
      256 * valHex (slice (segEx 3) 8 16) + valHex (slice (segEx 3) 16 24)
        < 256 * valHex (slice (segEx 5) 8 16) + valHex (slice (segEx 5) 16 24))) ∧
    Option.bind (get_next_wal (segEx 3)) (fun n => is_before (segEx 3) n)
      = some true ∧
    is_before (segEx 3) (segEx 3) = some false := by
  refine ⟨c7_is_before_characterization.1 (segEx 3) (segEx 5) (by decide) (by decide),
    c7_is_before_characterization.2.1 (segEx 3) (by decide) (by decide) (by decide),
    c7_is_before_characterization.2.2 (segEx 3) (by decide)⟩

/-- C8: (i) the prune sweep scans the done set in ascending order and
stops at the first segment still present remotely: a segment survives
exactly when some done segment at or below it is still present;
(ii) pruning twice with an unchanged remote listing yields an identical
done set; (iii) re-running the extension step with an unchanged
archiver report and remote oracle leaves the done set identical (stated
for canonical same-timeline states, where the walk is well defined). -/
theorem c8_extend_prune_idempotent :
    (∀ (remote : Wal → Bool) (dones : List Wal), dones.Nodup →
      (prune remote dones).1
        = dones.filter (fun x => dones.any (fun y => !strLt x y && remote y))) ∧
    (∀ (remote : Wal → Bool) (dones : List Wal), dones.Nodup →
      (prune remote (prune remote dones).1).1 = (prune remote dones).1) ∧
    (∀ (remote : Wal → Bool) (ast : ArchiverStatus) (dones d1 : List Wal)
        (a1 : Nat) (e1 : Bool) (t : List Char) (ct : Nat),
      t.length = 8 → dones ≠ [] →
      (∀ w ∈ dones, ∃ n, n < 2 ^ 40 ∧ w = walC t n) →
      ast.last_archived_wal = walC t ct → ct < 2 ^ 40 →
      xlog_done_extend remote ast dones = some (d1, a1, e1) →
      (xlog_done_extend remote ast d1).map (fun r => r.1) = some d1) := by
  refine ⟨fun remote dones h => prune_eq_filter remote dones h, ?_, ?_⟩
  · intro remote dones hnd
    have h1 := prune_eq_filter remote dones hnd
    have hnd1 : (prune remote dones).1.Nodup := by
      rw [h1]
      exact hnd.filter _
    rw [prune_eq_filter remote _ hnd1]
    apply List.filter_eq_self.mpr
    intro x hx
    rw [h1] at hx
    obtain ⟨hxd, hpx⟩ := List.mem_filter.mp hx
    rw [List.any_eq_true] at hpx
    obtain ⟨y, hyd, hy⟩ := hpx
    have hxy : strLt x y = false ∧ remote y = true := by
      revert hy
      cases strLt x y <;> cases remote y <;> simp
    have hyd' : y ∈ (prune remote dones).1 := by
      rw [h1]
      refine List.mem_filter.mpr ⟨hyd, ?_⟩
      rw [List.any_eq_true]
      exact ⟨y, hyd, by rw [strLt_irrefl, hxy.2]; rfl⟩
    rw [List.any_eq_true]
    exact ⟨y, hyd', by rw [hxy.1, hxy.2]; rfl⟩
  · intro remote ast dones d1 a1 e1 t ct ht hne hcanon htgt hct hrun1
    obtain ⟨m, hmax⟩ := pyMax_isSome hne
    obtain ⟨hm_mem, hm_ub⟩ := pyMax_spec hmax
    obtain ⟨c0, hc0, hmeq⟩ := hcanon m hm_mem
    subst hmeq
    rcases hf : ast.last_failed_wal with _ | f
    · rw [xlog_done_extend_eq_none hmax hf] at hrun1
      obtain ⟨hcanon1, hsub1, hne1, hrest⟩ :=
        extend_from_idem remote ast t ht hc0 hct dones d1 a1 false false e1
          htgt hcanon hm_mem hrun1
      obtain ⟨m1, hmax1⟩ := pyMax_isSome hne1
      obtain ⟨hm1_mem, hm1_ub⟩ := pyMax_spec hmax1
      obtain ⟨c1, hc1, hm1eq⟩ := hcanon1 m1 hm1_mem
      subst hm1eq
      obtain ⟨a2, hrun2⟩ := hrest c1 false false hc1 hm1_mem hm1_ub
        (fun h => (Bool.false_ne_true h).elim)
      rw [xlog_done_extend_eq_none hmax1 hf, hrun2, Option.map_some']
    · obtain ⟨mn, hmin⟩ := pyMin_isSome hne
      rw [xlog_done_extend_eq_some hmax hmin hf] at hrun1
      obtain ⟨hcanon1, hsub1, hne1, hrest⟩ :=
        extend_from_idem remote ast t ht hc0 hct dones d1 a1
          (strLt f (walC t c0)) (strLt mn f || strLt f (walC t c0)) e1
          htgt hcanon hm_mem hrun1
      obtain ⟨mn2, hmin2⟩ := pyMin_isSome hne1
      obtain ⟨m1, hmax1⟩ := pyMax_isSome hne1
      obtain ⟨hm1_mem, hm1_ub⟩ := pyMax_spec hmax1
      obtain ⟨c1, hc1, hm1eq⟩ := hcanon1 m1 hm1_mem
      subst hm1eq
      have hc0c1 : c0 ≤ c1 := by
        have hs := hm1_ub _ (hsub1 _ hm_mem)
        rw [walC_strLt t hc1 hc0] at hs
        have := of_decide_eq_false hs
        omega
      have hmono : strLt f (walC t c0) = true → strLt f (walC t c1) = true := by
        intro h1
        rcases Nat.eq_or_lt_of_le hc0c1 with heq | hlt
        · rw [← heq]
          exact h1
        · exact strLt_trans h1
            (by rw [walC_strLt t hc0 hc1]; exact decide_eq_true hlt)
      obtain ⟨a2, hrun2⟩ := hrest c1 (strLt f (walC t c1))
        (strLt mn2 f || strLt f (walC t c1)) hc1 hm1_mem hm1_ub hmono
      rw [xlog_done_extend_eq_some hmax1 hmin2 hf, hrun2, Option.map_some']

/-- C8 witness: the prune characterization and idempotence at a concrete
two-segment set, and extension idempotence at the concrete extension
scenario. -/
theorem c8_extend_prune_idempotent_witness :
    (prune (fun w => decide (w = segEx 16)) [segEx 17, segEx 16]).1
        = [segEx 17, segEx 16].filter
            (fun x => [segEx 17, segEx 16].any
              (fun y => !strLt x y && decide (y = segEx 16))) ∧
    (prune (fun _ => false) (prune (fun _ => false) [segEx 17, segEx 16]).1).1
        = (prune (fun _ => false) [segEx 17, segEx 16]).1 ∧
    (xlog_done_extend (fun _ => false) astNewFail
        [segEx 16, segEx 17]).map (fun r => r.1) = some [segEx 16, segEx 17] := by
  refine ⟨c8_extend_prune_idempotent.1 _ _ (by decide),
    c8_extend_prune_idempotent.2.1 _ _ (by decide), ?_⟩
  refine c8_extend_prune_idempotent.2.2 (fun _ => false) astNewFail [segEx 16]
    [segEx 16, segEx 17] 1 true ("00000001".toList) 17 (by decide) (by decide)
    ?_ (by decide) (by norm_num) (by decide)
  intro w hw
  rw [List.mem_singleton] at hw
  subst hw
  exact ⟨16, by norm_num, by decide⟩

/-- C9: `compute_complex_metrics` is read-only over the engine state:
whenever it completes, the backup list, the done-segment set and the
three exception flags of the resulting state are unchanged (only gauge
fields are written). -/
theorem c9_compute_is_read_only (st st' : ExporterState)
    (h : compute_complex_metrics st = some st') :
    st'.bbs = st.bbs ∧ st'.xlogs_done = st.xlogs_done ∧
    st'.basebackup_exception = st.basebackup_exception ∧
    st'.xlog_exception = st.xlog_exception ∧
    st'.remote_exception = st.remote_exception := by
  rw [compute_complex_metrics, Option.map_eq_some'] at h
  obtain ⟨out, _, rfl⟩ := h
  exact ⟨rfl, rfl, rfl, rfl, rfl⟩

/-- C9 witness: the frame theorem applied to the concrete two-backup
state. -/
theorem c9_compute_is_read_only_witness :
    (compute_complex_metrics stGap).map
      (fun st' => (st'.bbs, st'.xlogs_done, st'.basebackup_exception,
        st'.xlog_exception, st'.remote_exception))
      = some (stGap.bbs, stGap.xlogs_done, false, false, false) := by
  have hs : (compute_complex_metrics stGap).isSome = true := by decide
  obtain ⟨st', h⟩ := Option.isSome_iff_exists.mp hs
  obtain ⟨e1, e2, e3, e4, e5⟩ := c9_compute_is_read_only stGap st' h
  rw [h, Option.map_some', e1, e2, e3, e4, e5]
  decide

/-- C10: when the computed oldest-valid-basebackup value is `None`, the
oldest-valid gauge keeps its previously published value; when the
backup list is empty, the useless-segment gauge keeps its previously
published value. -/
theorem c10_unset_gauges_retained (st st' : ExporterState)
    (h : compute_complex_metrics st = some st')
    (hnull : oldest_valid_result st = some none) :
    st'.oldest_valid_basebackup_g = st.oldest_valid_basebackup_g ∧
    (st.bbs = [] → st'.useless_remote_wal_segment_g
      = st.useless_remote_wal_segment_g) := by
  rw [compute_complex_metrics, Option.map_eq_some'] at h
  obtain ⟨out, hout, rfl⟩ := h
  rw [oldest_valid_result, hout, Option.map_some', Option.some.injEq] at hnull
  constructor
  · rw [write_gauges, hnull]
  · intro hbbs
    rw [write_gauges]
    simp only [hbbs]

/-- C10 witness: the retention theorem applied to a state with no
backups and one done segment (so the computation completes and the
computed oldest-valid value is `None`). -/
theorem c10_unset_gauges_retained_witness :
    (compute_complex_metrics (mkState [] [segEx 5])).map
      (fun st' => (st'.oldest_valid_basebackup_g, st'.useless_remote_wal_segment_g))
      = some (0, 0) := by
  have hs : (compute_complex_metrics (mkState [] [segEx 5])).isSome = true := by decide
  obtain ⟨st', h⟩ := Option.isSome_iff_exists.mp hs
  obtain ⟨e1, e2⟩ := c10_unset_gauges_retained (mkState [] [segEx 5]) st' h (by decide)
  rw [h, Option.map_some', e1, e2 rfl]
  decide

end Walg
